import Mathlib

/-! Cluster combinators of `pkg/test-infra/clusters.go`

A verification development for the two combinators of package `testinfra`:
`groupCluster` (children applied and deleted concurrently through an
`errgroup.Group`) and `compositeCluster` (children applied and deleted one
after the other, stopping at the first error).

The model:

* A call of an interface method is described by the list of its possible
  *runs*.  A run is a trace of leaf events together with the value the call
  returns.  Sequential code has one run for every choice of runs of the calls
  it makes; the goroutines of an `errgroup.Group` contribute every
  interleaving of their traces.
* A leaf operation contributes two events, `call` and `ret`, so that two
  leaf operations running in different goroutines may overlap in a trace.
* A Go `error` is an `Option E` (`none` is `nil`); a Go slice is a `List`
  (the `nil` slice and the empty slice are both `[]`).
* The leaf implementations (`tidb.New`, `cdc.New`, ...) are not part of the
  file under study: the outcome of each leaf operation is a parameter
  (`LeafOutcomes`), and every theorem quantifies over it.  No combinator calls
  a method of a child twice, so a leaf that occurs once in a tree is entered at
  most once per run and one outcome per leaf and method describes it fully;
  a leaf that occurs twice is given two names.
* What a leaf does to the outside world is not modelled: the trace records
  that the leaf was entered and that it returned.
* The theorems about children in general (`Cluster` values) make no assumption
  on the runs of a child; those about whole trees build the children from
  `Tree`.
* The builders (`NewCDCCluster`, ...) are applied to leaves named by the
  arguments of their constructors (`Leaf`).
-/

namespace testinfra

/-! ## Traces and runs -/

/-- The four methods of the interface `clusterTypes.Cluster`. -/
inductive Op where
  | Apply
  | Delete
  | GetNodes
  | GetClientNodes
  deriving DecidableEq

/-- An observable event: leaf `l` is entered for method `op`, or returns from it. -/
inductive Event (L : Type) where
  | call (op : Op) (l : L)
  | ret (op : Op) (l : L)
  deriving DecidableEq

/-- The method an event belongs to. -/
def Event.op {L : Type} : Event L → Op
  | .call op _ => op
  | .ret op _ => op

/-- A trace is the sequence of leaf events of one run, in the order they happen. -/
abbrev Trace (L : Type) := List (Event L)

/-- The possible runs of a call returning a value of type `R`. -/
abbrev Runs (L R : Type) := List (Trace L × R)

/-- The leaf an event enters for method `op`, if it is such an event. -/
def Event.callOf {L : Type} (op : Op) : Event L → Option L
  | .call o l => if o = op then some l else none
  | .ret _ _ => none

/-- The leaves entered for method `op` in a trace, in the order they are entered. -/
def calls {L : Type} (op : Op) (t : Trace L) : List L :=
  t.filterMap (Event.callOf op)

/-! ## The interface `clusterTypes.Cluster` -/

/-- Modelled from the spec: the interface `clusterTypes.Cluster` is declared in
package `pkg/cluster/types`, outside `clusters.go`.  It is the operation set
`Apply() error`, `Delete() error`, `GetNodes() ([]Node, error)` and
`GetClientNodes() ([]ClientNode, error)`, the four methods `clusters.go` calls
on a child and defines on both combinators; each is given by its possible
runs. -/
structure Cluster (L E N C : Type) where
  Apply : Runs L (Option E)
  Delete : Runs L (Option E)
  GetNodes : Runs L (List N × Option E)
  GetClientNodes : Runs L (List C × Option E)

/-- What each leaf operation returns in the run under study.  The leaf
implementations live outside `clusters.go`, so their results are a parameter.
An inventory method returns a pair as in Go: a leaf may hand back a sequence
together with an error. -/
structure LeafOutcomes (L E N C : Type) where
  Apply : L → Option E
  Delete : L → Option E
  GetNodes : L → List N × Option E
  GetClientNodes : L → List C × Option E

/-- A leaf cluster `l`: each method is entered, returns, and yields the outcome
`env` assigns to it. -/
def leafCluster {L E N C : Type} (env : LeafOutcomes L E N C) (l : L) : Cluster L E N C where
  Apply := [([.call .Apply l, .ret .Apply l], env.Apply l)]
  Delete := [([.call .Delete l, .ret .Delete l], env.Delete l)]
  GetNodes := [([.call .GetNodes l, .ret .GetNodes l], env.GetNodes l)]
  GetClientNodes := [([.call .GetClientNodes l, .ret .GetClientNodes l], env.GetClientNodes l)]

/-! ## `golang.org/x/sync/errgroup` -/

/-- Helper of `shuffle`: the interleavings of `x :: xs` with the second list,
where `k` gives the interleavings of `xs` with any list. -/
def shuffleAux {α : Type} (x : α) (xs : List α) (k : List α → List (List α)) :
    List α → List (List α)
  | [] => [x :: xs]
  | y :: ys => (k (y :: ys)).map (x :: ·) ++ (shuffleAux x xs k ys).map (y :: ·)

/-- All interleavings of two sequences: each keeps its own order. -/
def shuffle {α : Type} : List α → List α → List (List α)
  | [], ys => [ys]
  | x :: xs, ys => shuffleAux x xs (shuffle xs) ys

/-- All interleavings of the traces of a list of goroutines. -/
def interleavings {α : Type} : List (List α) → List (List α)
  | [] => [[]]
  | t :: ts => (interleavings ts).flatMap (shuffle t)

/-- The values `Wait` may return for goroutines that returned `errs`: `nil` when
none failed, else the error of whichever failing goroutine recorded its error
first, which may be any of them. -/
def firstError {E : Type} (errs : List (Option E)) : List (Option E) :=
  match errs.filter Option.isSome with
  | [] => [none]
  | e :: es => e :: es

/-- Modelled from the spec: package `golang.org/x/sync/errgroup` is imported by
`clusters.go` and its source is not part of the repository.  A zero-value
`errgroup.Group` (`var g errgroup.Group`: no context, no limit) is the
collection of functions handed to `Go` so far, each running in its own
goroutine. -/
structure errgroup.Group (L E : Type) where
  fns : List (Runs L (Option E))

/-- Modelled from the spec: the method `Go` starts `f` in a new goroutine (one
task per call) and returns at once. -/
def errgroup.Group.Go {L E : Type} (g : errgroup.Group L E) (f : Runs L (Option E)) :
    errgroup.Group L E :=
  ⟨g.fns ++ [f]⟩

/-- Modelled from the spec: the method `Wait` blocks until every function handed
to `Go` has returned, then returns the first non-nil error recorded, if any.
Every goroutine runs to its end (a zero-value group cancels nothing), and they
run concurrently: a run of `Wait` takes one run of each function, its trace is
any interleaving of their traces, and its result is any value of `firstError`. -/
def errgroup.Group.Wait {L E : Type} (g : errgroup.Group L E) : Runs L (Option E) :=
  (List.sections g.fns).flatMap fun runs =>
    (interleavings (runs.map Prod.fst)).flatMap fun t =>
      (firstError (runs.map Prod.snd)).map fun err => (t, err)

/-! ## `groupCluster` -/

/-- The struct `groupCluster`: creates clusters concurrently. -/
structure groupCluster (L E N C : Type) where
  ops : List (Cluster L E N C)

/-- The constructor `NewGroupCluster` creates a `groupCluster`. -/
def NewGroupCluster {L E N C : Type} (clusters : List (Cluster L E N C)) :
    groupCluster L E N C :=
  ⟨clusters⟩

/-- The method `groupCluster.Apply`: starting from `var g errgroup.Group`, one
`g.Go` per child, in index order, each running that child's `Apply`; then
`g.Wait()`, whose error (or `nil`) is returned. -/
def groupCluster.Apply {L E N C : Type} (c : groupCluster L E N C) : Runs L (Option E) :=
  (c.ops.foldl (fun g op => g.Go op.Apply) (⟨[]⟩ : errgroup.Group L E)).Wait

/-- The method `groupCluster.Delete`: as `Apply`, with the child's `Delete`. -/
def groupCluster.Delete {L E N C : Type} (c : groupCluster L E N C) : Runs L (Option E) :=
  (c.ops.foldl (fun g op => g.Go op.Delete) (⟨[]⟩ : errgroup.Group L E)).Wait

/-- The loop of `groupCluster.GetNodes` over the remaining children, with the
accumulator `totalNodes`: a child error returns `nil, err` at once. -/
def groupCluster.GetNodes.loop {L E N C : Type} :
    List (Cluster L E N C) → List N → Runs L (List N × Option E)
  | [], totalNodes => [([], (totalNodes, none))]
  | op :: ops, totalNodes =>
    op.GetNodes.flatMap fun run =>
      match run.2.2 with
      | some err => [(run.1, ([], some err))]
      | none =>
        (groupCluster.GetNodes.loop ops (totalNodes ++ run.2.1)).map fun rest =>
          (run.1 ++ rest.1, rest.2)

/-- The method `groupCluster.GetNodes` returns the cluster nodes. -/
def groupCluster.GetNodes {L E N C : Type} (c : groupCluster L E N C) :
    Runs L (List N × Option E) :=
  groupCluster.GetNodes.loop c.ops []

/-- The loop of `groupCluster.GetClientNodes`. -/
def groupCluster.GetClientNodes.loop {L E N C : Type} :
    List (Cluster L E N C) → List C → Runs L (List C × Option E)
  | [], totalNodes => [([], (totalNodes, none))]
  | op :: ops, totalNodes =>
    op.GetClientNodes.flatMap fun run =>
      match run.2.2 with
      | some err => [(run.1, ([], some err))]
      | none =>
        (groupCluster.GetClientNodes.loop ops (totalNodes ++ run.2.1)).map fun rest =>
          (run.1 ++ rest.1, rest.2)

/-- The method `groupCluster.GetClientNodes` returns the client nodes. -/
def groupCluster.GetClientNodes {L E N C : Type} (c : groupCluster L E N C) :
    Runs L (List C × Option E) :=
  groupCluster.GetClientNodes.loop c.ops []

/-- A `*groupCluster` used as a `clusterTypes.Cluster`. -/
def groupCluster.asCluster {L E N C : Type} (c : groupCluster L E N C) : Cluster L E N C where
  Apply := c.Apply
  Delete := c.Delete
  GetNodes := c.GetNodes
  GetClientNodes := c.GetClientNodes

/-! ## `compositeCluster` -/

/-- The struct `compositeCluster`: creates clusters sequentially. -/
structure compositeCluster (L E N C : Type) where
  ops : List (Cluster L E N C)

/-- The constructor `NewCompositeCluster` creates a `compositeCluster`. -/
def NewCompositeCluster {L E N C : Type} (clusters : List (Cluster L E N C)) :
    compositeCluster L E N C :=
  ⟨clusters⟩

/-- The loop of `compositeCluster.Apply` over the remaining children: `op.Apply()`
is called on the next child, a child error is returned at once, and `nil` is
returned after the last child. -/
def compositeCluster.Apply.loop {L E N C : Type} :
    List (Cluster L E N C) → Runs L (Option E)
  | [] => [([], none)]
  | op :: ops =>
    op.Apply.flatMap fun run =>
      match run.2 with
      | some err => [(run.1, some err)]
      | none => (compositeCluster.Apply.loop ops).map fun rest => (run.1 ++ rest.1, rest.2)

/-- The method `compositeCluster.Apply` creates the cluster. -/
def compositeCluster.Apply {L E N C : Type} (c : compositeCluster L E N C) :
    Runs L (Option E) :=
  compositeCluster.Apply.loop c.ops

/-- The loop of `compositeCluster.Delete`. -/
def compositeCluster.Delete.loop {L E N C : Type} :
    List (Cluster L E N C) → Runs L (Option E)
  | [] => [([], none)]
  | op :: ops =>
    op.Delete.flatMap fun run =>
      match run.2 with
      | some err => [(run.1, some err)]
      | none => (compositeCluster.Delete.loop ops).map fun rest => (run.1 ++ rest.1, rest.2)

/-- The method `compositeCluster.Delete` deletes the cluster. -/
def compositeCluster.Delete {L E N C : Type} (c : compositeCluster L E N C) :
    Runs L (Option E) :=
  compositeCluster.Delete.loop c.ops

/-- The loop of `compositeCluster.GetNodes`. -/
def compositeCluster.GetNodes.loop {L E N C : Type} :
    List (Cluster L E N C) → List N → Runs L (List N × Option E)
  | [], totalNodes => [([], (totalNodes, none))]
  | op :: ops, totalNodes =>
    op.GetNodes.flatMap fun run =>
      match run.2.2 with
      | some err => [(run.1, ([], some err))]
      | none =>
        (compositeCluster.GetNodes.loop ops (totalNodes ++ run.2.1)).map fun rest =>
          (run.1 ++ rest.1, rest.2)

/-- The method `compositeCluster.GetNodes` returns the cluster nodes. -/
def compositeCluster.GetNodes {L E N C : Type} (c : compositeCluster L E N C) :
    Runs L (List N × Option E) :=
  compositeCluster.GetNodes.loop c.ops []

/-- The loop of `compositeCluster.GetClientNodes`. -/
def compositeCluster.GetClientNodes.loop {L E N C : Type} :
    List (Cluster L E N C) → List C → Runs L (List C × Option E)
  | [], totalNodes => [([], (totalNodes, none))]
  | op :: ops, totalNodes =>
    op.GetClientNodes.flatMap fun run =>
      match run.2.2 with
      | some err => [(run.1, ([], some err))]
      | none =>
        (compositeCluster.GetClientNodes.loop ops (totalNodes ++ run.2.1)).map fun rest =>
          (run.1 ++ rest.1, rest.2)

/-- The method `compositeCluster.GetClientNodes` returns the client nodes. -/
def compositeCluster.GetClientNodes {L E N C : Type} (c : compositeCluster L E N C) :
    Runs L (List C × Option E) :=
  compositeCluster.GetClientNodes.loop c.ops []

/-- A `*compositeCluster` used as a `clusterTypes.Cluster`. -/
def compositeCluster.asCluster {L E N C : Type} (c : compositeCluster L E N C) :
    Cluster L E N C where
  Apply := c.Apply
  Delete := c.Delete
  GetNodes := c.GetNodes
  GetClientNodes := c.GetClientNodes

/-! ## Trees of combinators -/

/-- The shape of a value built by nesting `NewGroupCluster` and
`NewCompositeCluster` over leaves. -/
inductive Tree (L : Type) where
  | leaf (l : L)
  | group (ts : List (Tree L))
  | composite (ts : List (Tree L))

mutual
/-- The cluster a tree denotes. -/
def Tree.build {L E N C : Type} (env : LeafOutcomes L E N C) : Tree L → Cluster L E N C
  | .leaf l => leafCluster env l
  | .group ts => (NewGroupCluster (Tree.buildList env ts)).asCluster
  | .composite ts => (NewCompositeCluster (Tree.buildList env ts)).asCluster
/-- The clusters a list of trees denotes. -/
def Tree.buildList {L E N C : Type} (env : LeafOutcomes L E N C) :
    List (Tree L) → List (Cluster L E N C)
  | [] => []
  | t :: ts => Tree.build env t :: Tree.buildList env ts
end

mutual
/-- The leaves of a tree, depth first, children in declared order. -/
def Tree.leaves {L : Type} : Tree L → List L
  | .leaf l => [l]
  | .group ts => Tree.leavesList ts
  | .composite ts => Tree.leavesList ts
/-- The leaves of a list of trees, in order. -/
def Tree.leavesList {L : Type} : List (Tree L) → List L
  | [] => []
  | t :: ts => Tree.leaves t ++ Tree.leavesList ts
end


/-! ## Generic form of the loops -/

/-- The loop shared by `compositeCluster.Apply` and `compositeCluster.Delete`,
with the child method `f` as a parameter. -/
def seqLoop {L E N C : Type} (f : Cluster L E N C → Runs L (Option E)) :
    List (Cluster L E N C) → Runs L (Option E)
  | [] => [([], none)]
  | op :: ops =>
    (f op).flatMap fun run =>
      match run.2 with
      | some err => [(run.1, some err)]
      | none => (seqLoop f ops).map fun rest => (run.1 ++ rest.1, rest.2)

/-- The loop shared by the four inventory methods, with the child method `f` as
a parameter. -/
def gatherLoop {L E N C α : Type} (f : Cluster L E N C → Runs L (List α × Option E)) :
    List (Cluster L E N C) → List α → Runs L (List α × Option E)
  | [], totalNodes => [([], (totalNodes, none))]
  | op :: ops, totalNodes =>
    (f op).flatMap fun run =>
      match run.2.2 with
      | some err => [(run.1, ([], some err))]
      | none =>
        (gatherLoop f ops (totalNodes ++ run.2.1)).map fun rest => (run.1 ++ rest.1, rest.2)

/-- A method `f` of the interface that has the shape of the inventory methods:
a leaf answers `out l`, both combinators run the inventory loop. -/
structure IsInventory {L E N C α : Type} (env : LeafOutcomes L E N C)
    (f : Cluster L E N C → Runs L (List α × Option E)) (out : L → List α × Option E)
    (o : Op) : Prop where
  leaf : ∀ l, f (leafCluster env l) = [([.call o l, .ret o l], out l)]
  group : ∀ ops, f (NewGroupCluster ops).asCluster = gatherLoop f ops []
  composite : ∀ ops, f (NewCompositeCluster ops).asCluster = gatherLoop f ops []

/-- A method `f` of the interface that has the shape of `Apply` and `Delete`:
a leaf answers `out l`, a group fans out and waits, a composite runs the
sequential loop. -/
structure IsLifecycle {L E N C : Type} (env : LeafOutcomes L E N C)
    (f : Cluster L E N C → Runs L (Option E)) (out : L → Option E) (o : Op) : Prop where
  leaf : ∀ l, f (leafCluster env l) = [([.call o l, .ret o l], out l)]
  group : ∀ ops, f (NewGroupCluster ops).asCluster = (errgroup.Group.mk (ops.map f)).Wait
  composite : ∀ ops, f (NewCompositeCluster ops).asCluster = seqLoop f ops

/-- The events of entering and leaving the leaves `ls` one after the other for
method `op`. -/
def leafEvents {L : Type} (op : Op) (ls : List L) : Trace L :=
  ls.flatMap fun l => [.call op l, .ret op l]

/-! ## Worked examples -/

/-- Leaf outcomes for the worked examples: leaf `l` owns nodes `l` and `l + 10`
and client node `l + 100`; every operation of a leaf in `bad` fails with the error
`500 + l`, every other operation succeeds. -/
def exampleOutcomes (bad : List Nat) : LeafOutcomes Nat Nat Nat Nat where
  Apply := fun l => if l ∈ bad then some (500 + l) else none
  Delete := fun l => if l ∈ bad then some (500 + l) else none
  GetNodes := fun l => ([l, l + 10], if l ∈ bad then some (500 + l) else none)
  GetClientNodes := fun l => ([l + 100], if l ∈ bad then some (500 + l) else none)

/-- The tree `Composite(Group(1, Composite(2, 3)), 4)`. -/
def exampleTree : Tree Nat :=
  .composite [.group [.leaf 1, .composite [.leaf 2, .leaf 3]], .leaf 4]

/-- The leaf clusters `ls` of the worked examples, those in `bad` failing. -/
def exampleLeaves (bad ls : List Nat) : List (Cluster Nat Nat Nat Nat) :=
  ls.map (leafCluster (exampleOutcomes bad))

/-- The run `run` of a combinator over the children `ops` is put together from
runs `crs` of the child method `f`: its trace is theirs, rearranged; it succeeds
only if they all did; an error it returns is the error of one of them.  Here
`err` reads the error out of a returned value. -/
def MadeOf {L E N C R : Type} (f : Cluster L E N C → Runs L R) (err : R → Option E)
    (ops : List (Cluster L E N C)) (run : Trace L × R) : Prop :=
  ∃ crs : List (Trace L × R),
    (∀ cr ∈ crs, ∃ c ∈ ops, cr ∈ f c) ∧ run.1.Perm (crs.map Prod.fst).flatten ∧
      (err run.2 = none → ∀ cr ∈ crs, err cr.2 = none) ∧
      (∀ e, err run.2 = some e → ∃ cr ∈ crs, err cr.2 = some e)

/-- The run `run` of method `o` neither hides nor invents an error: if it
succeeds, every leaf it entered succeeded, and an error it returns is the error
returned by a leaf it entered.  Here `out` gives what a leaf returns and `err`
reads the error out of a returned value. -/
def Propagates {L E R : Type} (o : Op) (out : L → R) (err : R → Option E)
    (run : Trace L × R) : Prop :=
  (err run.2 = none → ∀ l ∈ calls o run.1, err (out l) = none) ∧
    (∀ e, err run.2 = some e → ∃ l ∈ calls o run.1, err (out l) = some e)

/-! ## The cluster builders of `clusters.go` -/

/-- What a builder writes into the spec of a TiDB cluster after `tidb.New` and
before handing it to a combinator: nothing, the binlog switch with the pump
spec (`NewBinlogCluster`), or the placement rules of PD (`NewTiFlashCluster`).
The values written (replicas, storage, image) play no part in the combinators. -/
inductive SpecPatch where
  | unchanged
  | binlogPump
  | placementRules
  deriving DecidableEq

/-- Modelled from the spec: the leaf clusters made by `tidb.New`, `cdc.New`,
`binlog.New` and `tiflash.New` live in packages outside `clusters.go`.  A leaf
is named by the arguments of its constructor and, for a TiDB cluster, by what
the builder wrote into its spec; what its methods return is given by
`LeafOutcomes`. -/
inductive Leaf (Conf : Type) where
  | tidb (ns name : String) (conf : Conf) (patch : SpecPatch)
  | cdc (ns name : String)
  | binlog (ns name : String)
  | tiflash (ns name : String)
  deriving DecidableEq

/-- Modelled from the spec: the constructor `tidb.New(namespace, name, conf)`
returns the TiDB leaf of that name, its spec as built from `conf`. -/
def tidb.New {Conf : Type} (ns name : String) (conf : Conf) : Leaf Conf :=
  .tidb ns name conf .unchanged

/-- Modelled from the spec: the constructor `cdc.New(namespace, name)`. -/
def cdc.New {Conf : Type} (ns name : String) : Leaf Conf :=
  .cdc ns name

/-- Modelled from the spec: the constructor `binlog.New(namespace, name)`. -/
def binlog.New {Conf : Type} (ns name : String) : Leaf Conf :=
  .binlog ns name

/-- Modelled from the spec: the constructor `tiflash.New(namespace, name)`. -/
def tiflash.New {Conf : Type} (ns name : String) : Leaf Conf :=
  .tiflash ns name

/-- Modelled from the spec: writing `patch` into the spec that
`GetTiDBCluster()` gives access to; it changes a TiDB leaf only. -/
def Leaf.setSpec {Conf : Type} (patch : SpecPatch) : Leaf Conf → Leaf Conf
  | .tidb ns name conf _ => .tidb ns name conf patch
  | l => l

/-- The builder `NewCDCCluster` creates two TiDB clusters with CDC. -/
def NewCDCCluster {Conf E N C : Type} (env : LeafOutcomes (Leaf Conf) E N C)
    (ns name : String) (conf : Conf) : Cluster (Leaf Conf) E N C :=
  (NewCompositeCluster [
    (NewGroupCluster [
      leafCluster env (tidb.New ns (name ++ "-upstream") conf),
      leafCluster env (tidb.New ns (name ++ "-downstream") conf)]).asCluster,
    leafCluster env (cdc.New ns name)]).asCluster

/-- The builder `NewBinlogCluster` creates two TiDB clusters with Binlog: the
upstream one has binlog enabled and a pump spec written into it first. -/
def NewBinlogCluster {Conf E N C : Type} (env : LeafOutcomes (Leaf Conf) E N C)
    (ns name : String) (conf : Conf) : Cluster (Leaf Conf) E N C :=
  let up := (tidb.New ns (name ++ "-upstream") conf).setSpec .binlogPump
  (NewCompositeCluster [
    (NewGroupCluster [
      leafCluster env up,
      leafCluster env (tidb.New ns (name ++ "-downstream") conf)]).asCluster,
    leafCluster env (binlog.New ns name)]).asCluster

/-- The builder `NewTiFlashCluster` creates a TiDB cluster with TiFlash: the
placement rules are written into the spec of the TiDB cluster first. -/
def NewTiFlashCluster {Conf E N C : Type} (env : LeafOutcomes (Leaf Conf) E N C)
    (ns name : String) (conf : Conf) : Cluster (Leaf Conf) E N C :=
  let t := (tidb.New ns name conf).setSpec .placementRules
  (NewCompositeCluster [leafCluster env t, leafCluster env (tiflash.New ns name)]).asCluster

/-- The builder `NewTiFlashCDCABTestCluster` creates two TiDB clusters, one with
TiFlash, and a CDC cluster between the two. -/
def NewTiFlashCDCABTestCluster {Conf E N C : Type} (env : LeafOutcomes (Leaf Conf) E N C)
    (ns name : String) (confA confB : Conf) : Cluster (Leaf Conf) E N C :=
  (NewCompositeCluster [
    (NewGroupCluster [
      NewTiFlashCluster env ns (name ++ "-upstream") confA,
      leafCluster env (tidb.New ns (name ++ "-downstream") confB)]).asCluster,
    leafCluster env (cdc.New ns name)]).asCluster

/-- In the run `run` of `Apply` on `Composite(Group(up, down), relay)`: `up` and
`down` each made one run, interleaved in any way (`g`); the relay leaf is entered
after both have returned, and only when both returned no error; otherwise the
run ends with `g` and returns an error. -/
def RelayAfterBoth {L E N C : Type} (env : LeafOutcomes L E N C) (up down : Cluster L E N C)
    (relay : L) (run : Trace L × Option E) : Prop :=
  ∃ ru ∈ up.Apply, ∃ rd ∈ down.Apply, ∃ g ∈ interleavings [ru.1, rd.1],
    (ru.2 = none ∧ rd.2 = none ∧
        run = (g ++ [.call .Apply relay, .ret .Apply relay], env.Apply relay)) ∨
      ((ru.2 ≠ none ∨ rd.2 ≠ none) ∧ run.1 = g ∧ run.2 ≠ none ∧
        (run.2 = ru.2 ∨ run.2 = rd.2))

/-- How the sequential loop goes on after the run `run` of a child, where `k`
holds the runs of the loop over the remaining children. -/
def seqThen {L E : Type} (k : Runs L (Option E)) (run : Trace L × Option E) :
    Runs L (Option E) :=
  match run.2 with
  | some err => [(run.1, some err)]
  | none => k.map fun rest => (run.1 ++ rest.1, rest.2)

/-- How the inventory loop goes on after the run `run` of a child, where `k`
gives the runs of the loop over the remaining children from an accumulator. -/
def gatherThen {L E α : Type} (k : List α → Runs L (List α × Option E)) (acc : List α)
    (run : Trace L × List α × Option E) : Runs L (List α × Option E) :=
  match run.2.2 with
  | some err => [(run.1, ([], some err))]
  | none => (k (acc ++ run.2.1)).map fun rest => (run.1 ++ rest.1, rest.2)

/-- In the run `run` of `Apply`, the relay leaf comes last.  When the database
clusters succeeded, the trace is some `g` followed by the call of the relay,
where `g` holds every event of `needed` (the returns of the database leaves) and
does not enter the relay.  When they did not, the relay is not entered and the
run returns an error. -/
def RelayLast {L E : Type} (succeeded : Prop) (needed : List (Event L)) (relay : L)
    (run : Trace L × Option E) : Prop :=
  (succeeded →
    ∃ g : Trace L, run.1 = g ++ [.call .Apply relay, .ret .Apply relay] ∧
      (∀ ev ∈ needed, ev ∈ g) ∧ Event.call .Apply relay ∉ g) ∧
  (¬ succeeded → Event.call .Apply relay ∉ run.1 ∧ run.2 ≠ none)

/-- Leaf outcomes for the worked examples on the builders: `Apply` and `Delete`
of a TiDB cluster built from the configuration `1` fail with the error `7`;
everything else succeeds and owns no node. -/
def exampleBuilderOutcomes : LeafOutcomes (Leaf Nat) Nat Nat Nat where
  Apply := fun l =>
    match l with
    | .tidb _ _ conf _ => if conf = 1 then some 7 else none
    | _ => none
  Delete := fun l =>
    match l with
    | .tidb _ _ conf _ => if conf = 1 then some 7 else none
    | _ => none
  GetNodes := fun _ => ([], none)
  GetClientNodes := fun _ => ([], none)

/-- The trace of `run` is that of an inventory loop that stopped at the child
`op`: one successful run of the method `f` for each child of `pre`, in declared
order, followed by one failing run of `f` on `op`, and nothing else. -/
def QueriedUpTo {L E N C α : Type} (f : Cluster L E N C → Runs L (List α × Option E))
    (pre : List (Cluster L E N C)) (op : Cluster L E N C)
    (run : Trace L × List α × Option E) : Prop :=
  ∃ (rs : List (Trace L × List α)) (t : Trace L) (gathered : List α) (e : E),
    List.Forall₂ (fun p r => (r.1, (r.2, none)) ∈ f p) pre rs ∧
      (t, (gathered, some e)) ∈ f op ∧ run.1 = (rs.map Prod.fst).flatten ++ t

/-! # Theorems -/

/-! ## The loops in generic form -/

theorem compositeCluster_Apply_loop_eq {L E N C : Type} (ops : List (Cluster L E N C)) :
    compositeCluster.Apply.loop ops = seqLoop Cluster.Apply ops := by
  induction ops with
  | nil => rfl
  | cons op ops ih => simp only [compositeCluster.Apply.loop, seqLoop, ih]

theorem compositeCluster_Delete_loop_eq {L E N C : Type} (ops : List (Cluster L E N C)) :
    compositeCluster.Delete.loop ops = seqLoop Cluster.Delete ops := by
  induction ops with
  | nil => rfl
  | cons op ops ih => simp only [compositeCluster.Delete.loop, seqLoop, ih]

theorem groupCluster_GetNodes_loop_eq {L E N C : Type} (ops : List (Cluster L E N C))
    (acc : List N) :
    groupCluster.GetNodes.loop ops acc = gatherLoop Cluster.GetNodes ops acc := by
  induction ops generalizing acc with
  | nil => rfl
  | cons op ops ih => simp only [groupCluster.GetNodes.loop, gatherLoop, ih]

theorem groupCluster_GetClientNodes_loop_eq {L E N C : Type} (ops : List (Cluster L E N C))
    (acc : List C) :
    groupCluster.GetClientNodes.loop ops acc = gatherLoop Cluster.GetClientNodes ops acc := by
  induction ops generalizing acc with
  | nil => rfl
  | cons op ops ih => simp only [groupCluster.GetClientNodes.loop, gatherLoop, ih]

theorem compositeCluster_GetNodes_loop_eq {L E N C : Type} (ops : List (Cluster L E N C))
    (acc : List N) :
    compositeCluster.GetNodes.loop ops acc = gatherLoop Cluster.GetNodes ops acc := by
  induction ops generalizing acc with
  | nil => rfl
  | cons op ops ih => simp only [compositeCluster.GetNodes.loop, gatherLoop, ih]

theorem compositeCluster_GetClientNodes_loop_eq {L E N C : Type} (ops : List (Cluster L E N C))
    (acc : List C) :
    compositeCluster.GetClientNodes.loop ops acc = gatherLoop Cluster.GetClientNodes ops acc := by
  induction ops generalizing acc with
  | nil => rfl
  | cons op ops ih => simp only [compositeCluster.GetClientNodes.loop, gatherLoop, ih]

theorem errgroup_Group_foldl_Go {L E N C : Type} (f : Cluster L E N C → Runs L (Option E))
    (ops : List (Cluster L E N C)) (g : errgroup.Group L E) :
    ops.foldl (fun g op => g.Go (f op)) g = ⟨g.fns ++ ops.map f⟩ := by
  induction ops generalizing g with
  | nil => simp
  | cons op ops ih =>
    rw [List.foldl_cons, ih]
    simp [errgroup.Group.Go]

theorem groupCluster_Apply_eq {L E N C : Type} (c : groupCluster L E N C) :
    c.Apply = (errgroup.Group.mk (c.ops.map Cluster.Apply)).Wait := by
  simp [groupCluster.Apply, errgroup_Group_foldl_Go]

theorem groupCluster_Delete_eq {L E N C : Type} (c : groupCluster L E N C) :
    c.Delete = (errgroup.Group.mk (c.ops.map Cluster.Delete)).Wait := by
  simp [groupCluster.Delete, errgroup_Group_foldl_Go]

/-! ## Runs of the sequential loop -/

theorem mem_seqLoop_none {L E N C : Type} (f : Cluster L E N C → Runs L (Option E))
    (ops : List (Cluster L E N C)) (tr : Trace L) :
    (tr, none) ∈ seqLoop f ops ↔
      ∃ ts : List (Trace L), List.Forall₂ (fun op s => (s, none) ∈ f op) ops ts ∧
        tr = ts.flatten := by
  induction ops generalizing tr with
  | nil => simp [seqLoop]
  | cons op ops ih =>
    simp only [seqLoop, List.mem_flatMap]
    constructor
    · rintro ⟨⟨s, r⟩, hrun, hmem⟩
      cases r with
      | some e => simp at hmem
      | none =>
        simp only [List.mem_map] at hmem
        obtain ⟨⟨t, r⟩, hrest, heq⟩ := hmem
        simp only [Prod.mk.injEq] at heq
        obtain ⟨rfl, rfl⟩ := heq
        obtain ⟨ts, hts, rfl⟩ := (ih t).1 hrest
        exact ⟨s :: ts, List.Forall₂.cons hrun hts, by simp⟩
    · rintro ⟨ts, hts, rfl⟩
      cases hts with
      | cons hrun hrest =>
        rename_i s ts
        refine ⟨(s, none), hrun, ?_⟩
        simp only [List.mem_map]
        exact ⟨(ts.flatten, none), (ih _).2 ⟨ts, hrest, rfl⟩, by simp⟩

theorem mem_seqLoop_some {L E N C : Type} (f : Cluster L E N C → Runs L (Option E))
    (ops : List (Cluster L E N C)) (tr : Trace L) (e : E) :
    (tr, some e) ∈ seqLoop f ops ↔
      ∃ (pre : List (Cluster L E N C)) (op : Cluster L E N C) (post : List (Cluster L E N C))
        (ts : List (Trace L)) (t : Trace L),
        ops = pre ++ op :: post ∧ List.Forall₂ (fun p s => (s, none) ∈ f p) pre ts ∧
          (t, some e) ∈ f op ∧ tr = ts.flatten ++ t := by
  induction ops generalizing tr with
  | nil => simp [seqLoop]
  | cons op ops ih =>
    simp only [seqLoop, List.mem_flatMap]
    constructor
    · rintro ⟨⟨s, r⟩, hrun, hmem⟩
      cases r with
      | some e' =>
        simp only [List.mem_singleton, Prod.mk.injEq, Option.some.injEq] at hmem
        obtain ⟨rfl, rfl⟩ := hmem
        exact ⟨[], op, ops, [], tr, rfl, List.Forall₂.nil, hrun, by simp⟩
      | none =>
        simp only [List.mem_map] at hmem
        obtain ⟨⟨t, r⟩, hrest, heq⟩ := hmem
        simp only [Prod.mk.injEq] at heq
        obtain ⟨rfl, rfl⟩ := heq
        obtain ⟨pre, op', post, ts, t', rfl, hts, hop, rfl⟩ := (ih t).1 hrest
        exact ⟨op :: pre, op', post, s :: ts, t', rfl, List.Forall₂.cons hrun hts, hop, by simp⟩
    · rintro ⟨pre, op', post, ts, t, heq, hts, hop, rfl⟩
      cases hts with
      | nil =>
        simp only [List.nil_append, List.cons.injEq] at heq
        obtain ⟨rfl, rfl⟩ := heq
        exact ⟨(t, some e), hop, by simp⟩
      | cons hrun hrest =>
        rename_i p s pre ts
        simp only [List.cons_append, List.cons.injEq] at heq
        obtain ⟨rfl, rfl⟩ := heq
        refine ⟨(s, none), hrun, ?_⟩
        simp only [List.mem_map]
        exact ⟨(ts.flatten ++ t, some e), (ih _).2 ⟨pre, op', post, ts, t, rfl, hrest, hop, rfl⟩,
          by simp⟩


/-! ## Runs of the inventory loop -/

theorem mem_gatherLoop_none {L E N C α : Type}
    (f : Cluster L E N C → Runs L (List α × Option E))
    (ops : List (Cluster L E N C)) (acc : List α) (tr : Trace L) (ns : List α) :
    (tr, (ns, none)) ∈ gatherLoop f ops acc ↔
      ∃ rs : List (Trace L × List α),
        List.Forall₂ (fun op r => (r.1, (r.2, none)) ∈ f op) ops rs ∧
          tr = (rs.map Prod.fst).flatten ∧ ns = acc ++ (rs.map Prod.snd).flatten := by
  induction ops generalizing tr acc ns with
  | nil =>
    simp only [gatherLoop, List.mem_singleton, Prod.mk.injEq, and_true, List.forall₂_nil_left_iff,
      exists_eq_left, List.map_nil, List.flatten_nil, List.append_nil]
  | cons op ops ih =>
    simp only [gatherLoop, List.mem_flatMap]
    constructor
    · rintro ⟨⟨s, nodes, r⟩, hrun, hmem⟩
      cases r with
      | some e => simp at hmem
      | none =>
        simp only [List.mem_map] at hmem
        obtain ⟨⟨t, ns', r⟩, hrest, heq⟩ := hmem
        simp only [Prod.mk.injEq] at heq
        obtain ⟨rfl, rfl, rfl⟩ := heq
        obtain ⟨rs, hrs, rfl, rfl⟩ := (ih _ t _).1 hrest
        exact ⟨(s, nodes) :: rs, List.Forall₂.cons hrun hrs, by simp, by simp⟩
    · rintro ⟨rs, hrs, rfl, rfl⟩
      cases hrs with
      | cons hrun hrest =>
        rename_i r rs
        refine ⟨(r.1, (r.2, none)), hrun, ?_⟩
        simp only [List.mem_map]
        have hin : ((rs.map Prod.fst).flatten, ((acc ++ r.2) ++ (rs.map Prod.snd).flatten, none))
            ∈ gatherLoop f ops (acc ++ r.2) := (ih _ _ _).2 ⟨rs, hrest, rfl, rfl⟩
        exact ⟨_, hin, by simp⟩

theorem mem_gatherLoop_some {L E N C α : Type}
    (f : Cluster L E N C → Runs L (List α × Option E))
    (ops : List (Cluster L E N C)) (acc : List α) (tr : Trace L) (ns : List α) (e : E) :
    (tr, (ns, some e)) ∈ gatherLoop f ops acc ↔
      ns = [] ∧
      ∃ (pre : List (Cluster L E N C)) (op : Cluster L E N C) (post : List (Cluster L E N C))
        (rs : List (Trace L × List α)) (t : Trace L) (gathered : List α),
        ops = pre ++ op :: post ∧
          List.Forall₂ (fun p r => (r.1, (r.2, none)) ∈ f p) pre rs ∧
          (t, (gathered, some e)) ∈ f op ∧ tr = (rs.map Prod.fst).flatten ++ t := by
  induction ops generalizing tr acc ns with
  | nil => simp [gatherLoop]
  | cons op ops ih =>
    simp only [gatherLoop, List.mem_flatMap]
    constructor
    · rintro ⟨⟨s, nodes, r⟩, hrun, hmem⟩
      cases r with
      | some e' =>
        simp only [List.mem_singleton, Prod.mk.injEq, Option.some.injEq] at hmem
        obtain ⟨rfl, rfl, rfl⟩ := hmem
        exact ⟨rfl, [], op, ops, [], tr, nodes, rfl, List.Forall₂.nil, hrun, by simp⟩
      | none =>
        simp only [List.mem_map] at hmem
        obtain ⟨⟨t, ns', r⟩, hrest, heq⟩ := hmem
        simp only [Prod.mk.injEq] at heq
        obtain ⟨rfl, rfl, rfl⟩ := heq
        obtain ⟨hnil, pre, op', post, rs, t', nodes', rfl, hrs, hop, rfl⟩ := (ih _ t _).1 hrest
        exact ⟨hnil, op :: pre, op', post, (s, nodes) :: rs, t', nodes', rfl,
          List.Forall₂.cons hrun hrs, hop, by simp⟩
    · rintro ⟨rfl, pre, op', post, rs, t, nodes, heq, hrs, hop, rfl⟩
      cases hrs with
      | nil =>
        simp only [List.nil_append, List.cons.injEq] at heq
        obtain ⟨rfl, rfl⟩ := heq
        exact ⟨(t, (nodes, some e)), hop, by simp⟩
      | cons hrun hrest =>
        rename_i p r pre rs
        simp only [List.cons_append, List.cons.injEq] at heq
        obtain ⟨rfl, rfl⟩ := heq
        refine ⟨(r.1, (r.2, none)), hrun, ?_⟩
        simp only [List.mem_map]
        exact ⟨((rs.map Prod.fst).flatten ++ t, ([], some e)),
          (ih _ _ _).2 ⟨rfl, pre, op', post, rs, t, nodes, rfl, hrest, hop, rfl⟩, by simp⟩


/-! ## Interleavings -/

theorem shuffle_nil_right {α : Type} (xs : List α) : shuffle xs [] = [xs] := by
  cases xs <;> rfl

theorem shuffle_cons_cons {α : Type} (x : α) (xs : List α) (y : α) (ys : List α) :
    shuffle (x :: xs) (y :: ys) =
      (shuffle xs (y :: ys)).map (x :: ·) ++ (shuffle (x :: xs) ys).map (y :: ·) := rfl

/-- Induction over the members of `shuffle xs ys`: a property that holds when one
side is empty and is kept when either side contributes the next element holds of
every interleaving. -/
theorem shuffle_induction {α : Type} {P : List α → List α → List α → Prop}
    (nil_left : ∀ ys, P [] ys ys) (nil_right : ∀ xs, P xs [] xs)
    (left : ∀ x xs ys t, P xs ys t → P (x :: xs) ys (x :: t))
    (right : ∀ xs y ys t, P xs ys t → P xs (y :: ys) (y :: t)) :
    ∀ xs ys t, t ∈ shuffle xs ys → P xs ys t := by
  intro xs
  induction xs with
  | nil =>
    intro ys t ht
    simp only [shuffle, List.mem_singleton] at ht
    rw [ht]
    exact nil_left ys
  | cons x xs ihx =>
    intro ys
    induction ys with
    | nil =>
      intro t ht
      rw [shuffle_nil_right, List.mem_singleton] at ht
      rw [ht]
      exact nil_right _
    | cons y ys ihy =>
      intro t ht
      rw [shuffle_cons_cons, List.mem_append, List.mem_map, List.mem_map] at ht
      rcases ht with ⟨u, hu, rfl⟩ | ⟨u, hu, rfl⟩
      · exact left x xs (y :: ys) u (ihx _ _ hu)
      · exact right (x :: xs) y ys u (ihy _ hu)

theorem shuffle_perm {α : Type} (xs ys t : List α) (h : t ∈ shuffle xs ys) :
    t.Perm (xs ++ ys) := by
  refine shuffle_induction (P := fun xs ys t => t.Perm (xs ++ ys)) ?_ ?_ ?_ ?_ xs ys t h
  · intro ys; simp
  · intro xs; simp
  · intro x xs ys t ht; simpa using ht
  · intro xs y ys t ht
    exact (List.Perm.cons y ht).trans List.perm_middle.symm

theorem shuffle_sublist_left {α : Type} (xs ys t : List α) (h : t ∈ shuffle xs ys) :
    xs.Sublist t := by
  refine shuffle_induction (P := fun xs _ t => xs.Sublist t) ?_ ?_ ?_ ?_ xs ys t h
  · intro ys; simp
  · intro xs; simp
  · intro x xs ys t ht; exact ht.cons₂ x
  · intro xs y ys t ht; exact ht.cons y

theorem shuffle_sublist_right {α : Type} (xs ys t : List α) (h : t ∈ shuffle xs ys) :
    ys.Sublist t := by
  refine shuffle_induction (P := fun _ ys t => ys.Sublist t) ?_ ?_ ?_ ?_ xs ys t h
  · intro ys; simp
  · intro xs; simp
  · intro x xs ys t ht; exact ht.cons x
  · intro xs y ys t ht; exact ht.cons₂ y

theorem append_mem_shuffle {α : Type} (xs ys : List α) : xs ++ ys ∈ shuffle xs ys := by
  induction xs with
  | nil => simp [shuffle]
  | cons x xs ih =>
    cases ys with
    | nil => simp [shuffle_nil_right]
    | cons y ys =>
      rw [shuffle_cons_cons, List.mem_append, List.mem_map]
      exact Or.inl ⟨xs ++ y :: ys, ih, rfl⟩

theorem mem_interleavings_cons {α : Type} (s : List α) (ts : List (List α)) (t : List α) :
    t ∈ interleavings (s :: ts) ↔ ∃ u, u ∈ interleavings ts ∧ t ∈ shuffle s u := by
  simp [interleavings, List.mem_flatMap]

theorem interleavings_perm {α : Type} (ts : List (List α)) (t : List α)
    (h : t ∈ interleavings ts) : t.Perm ts.flatten := by
  induction ts generalizing t with
  | nil => simp [interleavings] at h; simp [h]
  | cons s ts ih =>
    obtain ⟨u, hu, ht⟩ := (mem_interleavings_cons s ts t).1 h
    rw [List.flatten_cons]
    exact (shuffle_perm s u t ht).trans (List.Perm.append_left s (ih u hu))

theorem interleavings_sublist {α : Type} (ts : List (List α)) (t : List α)
    (h : t ∈ interleavings ts) : ∀ s ∈ ts, s.Sublist t := by
  induction ts generalizing t with
  | nil => simp
  | cons s ts ih =>
    obtain ⟨u, hu, ht⟩ := (mem_interleavings_cons s ts t).1 h
    intro s' hs'
    rcases List.mem_cons.1 hs' with rfl | hmem
    · exact shuffle_sublist_left _ u t ht
    · exact (ih u hu s' hmem).trans (shuffle_sublist_right s u t ht)

theorem flatten_mem_interleavings {α : Type} (ts : List (List α)) :
    ts.flatten ∈ interleavings ts := by
  induction ts with
  | nil => simp [interleavings]
  | cons s ts ih =>
    exact (mem_interleavings_cons s ts _).2 ⟨ts.flatten, ih, by simpa using append_mem_shuffle s _⟩

theorem mem_of_mem_interleavings {α : Type} (ts : List (List α)) (t : List α)
    (h : t ∈ interleavings ts) (a : α) : a ∈ t ↔ ∃ s ∈ ts, a ∈ s := by
  rw [(interleavings_perm ts t h).mem_iff, List.mem_flatten]

/-! ## `Wait` -/

theorem mem_firstError {E : Type} (errs : List (Option E)) (r : Option E) :
    r ∈ firstError errs ↔
      (r = none ∧ ∀ x ∈ errs, x = none) ∨ (∃ e, r = some e ∧ some e ∈ errs) := by
  unfold firstError
  split
  · rename_i hnil
    have hall : ∀ x ∈ errs, x = none := by
      intro x hx
      cases x with
      | none => rfl
      | some e =>
        have : some e ∈ errs.filter Option.isSome := List.mem_filter.2 ⟨hx, rfl⟩
        rw [hnil] at this
        simp at this
    constructor
    · intro h
      exact Or.inl ⟨by simpa using h, hall⟩
    · rintro (⟨rfl, _⟩ | ⟨e, rfl, he⟩)
      · simp
      · simpa using hall _ he
  · rename_i e es hcons
    rw [← hcons, List.mem_filter]
    constructor
    · rintro ⟨hr, hsome⟩
      cases r with
      | none => simp at hsome
      | some e' => exact Or.inr ⟨e', rfl, hr⟩
    · rintro (⟨rfl, hall⟩ | ⟨e', rfl, he⟩)
      · have hmem : e ∈ errs.filter Option.isSome := by rw [hcons]; simp
        have h1 := List.mem_filter.1 hmem
        rw [hall e h1.1] at h1
        simp at h1
      · exact ⟨he, rfl⟩

theorem mem_Wait {L E : Type} (fns : List (Runs L (Option E))) (tr : Trace L) (r : Option E) :
    (tr, r) ∈ (errgroup.Group.mk fns).Wait ↔
      ∃ runs : List (Trace L × Option E), List.Forall₂ (fun run f => run ∈ f) runs fns ∧
        tr ∈ interleavings (runs.map Prod.fst) ∧ r ∈ firstError (runs.map Prod.snd) := by
  simp only [errgroup.Group.Wait, List.mem_flatMap, List.mem_map, List.mem_sections,
    Prod.mk.injEq]
  constructor
  · rintro ⟨runs, hruns, t, ht, err, herr, rfl, rfl⟩
    exact ⟨runs, hruns, ht, herr⟩
  · rintro ⟨runs, hruns, ht, herr⟩
    exact ⟨runs, hruns, tr, ht, r, herr, rfl, rfl⟩

/-- The runs of a fan-out over the children `ops` with child method `f`. -/
theorem mem_Wait_map {L E N C : Type} (f : Cluster L E N C → Runs L (Option E))
    (ops : List (Cluster L E N C)) (tr : Trace L) (r : Option E) :
    (tr, r) ∈ (errgroup.Group.mk (ops.map f)).Wait ↔
      ∃ runs : List (Trace L × Option E), List.Forall₂ (fun op run => run ∈ f op) ops runs ∧
        tr ∈ interleavings (runs.map Prod.fst) ∧ r ∈ firstError (runs.map Prod.snd) := by
  rw [mem_Wait]
  constructor
  · rintro ⟨runs, hruns, h⟩
    exact ⟨runs, (List.forall₂_map_right_iff.1 hruns).flip, h⟩
  · rintro ⟨runs, hruns, h⟩
    exact ⟨runs, List.forall₂_map_right_iff.2 hruns.flip, h⟩


/-! ## Induction over trees -/

theorem Tree_induct {L : Type} (P : Tree L → Prop) (Q : List (Tree L) → Prop)
    (hleaf : ∀ l, P (.leaf l)) (hgroup : ∀ ts, Q ts → P (.group ts))
    (hcomp : ∀ ts, Q ts → P (.composite ts)) (hnil : Q [])
    (hcons : ∀ t ts, P t → Q ts → Q (t :: ts)) : ∀ t, P t :=
  fun t => @Tree.rec L P Q hleaf hgroup hcomp hnil hcons t

theorem isInventory_GetNodes {L E N C : Type} (env : LeafOutcomes L E N C) :
    IsInventory env Cluster.GetNodes env.GetNodes .GetNodes where
  leaf := fun _ => rfl
  group := fun ops => groupCluster_GetNodes_loop_eq ops []
  composite := fun ops => compositeCluster_GetNodes_loop_eq ops []

theorem isInventory_GetClientNodes {L E N C : Type} (env : LeafOutcomes L E N C) :
    IsInventory env Cluster.GetClientNodes env.GetClientNodes .GetClientNodes where
  leaf := fun _ => rfl
  group := fun ops => groupCluster_GetClientNodes_loop_eq ops []
  composite := fun ops => compositeCluster_GetClientNodes_loop_eq ops []

theorem isLifecycle_Apply {L E N C : Type} (env : LeafOutcomes L E N C) :
    IsLifecycle env Cluster.Apply env.Apply .Apply where
  leaf := fun _ => rfl
  group := fun ops => groupCluster_Apply_eq (NewGroupCluster ops)
  composite := fun ops => compositeCluster_Apply_loop_eq ops

theorem isLifecycle_Delete {L E N C : Type} (env : LeafOutcomes L E N C) :
    IsLifecycle env Cluster.Delete env.Delete .Delete where
  leaf := fun _ => rfl
  group := fun ops => groupCluster_Delete_eq (NewGroupCluster ops)
  composite := fun ops => compositeCluster_Delete_loop_eq ops

/-! ## Inventory of a tree of succeeding leaves -/

theorem inventory_of_succeeding_leaves {L E N C α : Type} (env : LeafOutcomes L E N C)
    (f : Cluster L E N C → Runs L (List α × Option E)) (out : L → List α × Option E) (o : Op)
    (hf : IsInventory env f out o) (t : Tree L) :
    (∀ l ∈ t.leaves, (out l).2 = none) →
      f (t.build env) =
        [(leafEvents o t.leaves, (t.leaves.flatMap fun l => (out l).1, none))] := by
  refine Tree_induct
    (fun t => (∀ l ∈ t.leaves, (out l).2 = none) →
      f (t.build env) = [(leafEvents o t.leaves, (t.leaves.flatMap fun l => (out l).1, none))])
    (fun ts => (∀ l ∈ Tree.leavesList ts, (out l).2 = none) → ∀ acc : List α,
      gatherLoop f (Tree.buildList env ts) acc =
        [(leafEvents o (Tree.leavesList ts),
          (acc ++ (Tree.leavesList ts).flatMap fun l => (out l).1, none))])
    ?_ ?_ ?_ ?_ ?_ t
  · intro l hl
    have h := hl l (by simp [Tree.leaves])
    rw [Tree.build, hf.leaf]
    have hout : out l = ((out l).1, none) := by rw [← h]
    rw [hout]
    simp [Tree.leaves, leafEvents]
  · intro ts ih hl
    rw [Tree.build, hf.group]
    simpa [Tree.leaves, NewGroupCluster] using ih hl []
  · intro ts ih hl
    rw [Tree.build, hf.composite]
    simpa [Tree.leaves, NewCompositeCluster] using ih hl []
  · intro _ acc
    simp [Tree.buildList, Tree.leavesList, gatherLoop, leafEvents]
  · intro t ts iht ihts hl acc
    have h1 := iht (fun l h => hl l (by simp [Tree.leavesList, h]))
    have h2 := ihts (fun l h => hl l (by simp [Tree.leavesList, h]))
    simp only [Tree.buildList, gatherLoop, h1, h2, Tree.leavesList]
    simp [leafEvents]


/-! ## Loops over children with a first failing child -/

theorem seqLoop_all_succeed {L E N C : Type} (f : Cluster L E N C → Runs L (Option E))
    (ops : List (Cluster L E N C)) (h : ∀ p ∈ ops, ∀ run ∈ f p, run.2 = none)
    (run : Trace L × Option E) :
    run ∈ seqLoop f ops ↔
      ∃ ts : List (Trace L), List.Forall₂ (fun p s => (s, none) ∈ f p) ops ts ∧
        run = (ts.flatten, none) := by
  obtain ⟨tr, r⟩ := run
  cases r with
  | none =>
    rw [mem_seqLoop_none]
    constructor
    · rintro ⟨ts, hts, rfl⟩
      exact ⟨ts, hts, rfl⟩
    · rintro ⟨ts, hts, heq⟩
      exact ⟨ts, hts, (Prod.mk.inj heq).1⟩
  | some e =>
    rw [mem_seqLoop_some]
    constructor
    · rintro ⟨pre, op, post, ts, t, rfl, _, hop, _⟩
      have := h op (by simp) _ hop
      simp at this
    · rintro ⟨ts, _, heq⟩
      simp at heq

theorem seqLoop_first_failure {L E N C : Type} (f : Cluster L E N C → Runs L (Option E))
    (pre : List (Cluster L E N C)) (op : Cluster L E N C) (post : List (Cluster L E N C))
    (hpre : ∀ p ∈ pre, ∀ run ∈ f p, run.2 = none) (hop : ∀ run ∈ f op, run.2 ≠ none)
    (run : Trace L × Option E) :
    run ∈ seqLoop f (pre ++ op :: post) ↔
      ∃ (ts : List (Trace L)) (t : Trace L) (e : E),
        List.Forall₂ (fun p s => (s, none) ∈ f p) pre ts ∧ (t, some e) ∈ f op ∧
          run = (ts.flatten ++ t, some e) := by
  induction pre generalizing run with
  | nil =>
    simp only [List.nil_append, seqLoop, List.mem_flatMap]
    constructor
    · rintro ⟨⟨t, r⟩, hrun, hmem⟩
      cases r with
      | none => exact absurd rfl (hop _ hrun)
      | some e =>
        simp only [List.mem_singleton] at hmem
        exact ⟨[], t, e, List.Forall₂.nil, hrun, by simpa using hmem⟩
    · rintro ⟨ts, t, e, hts, hrun, rfl⟩
      cases hts
      exact ⟨(t, some e), hrun, by simp⟩
  | cons p pre ih =>
    have ih' := fun run => ih (fun q hq => hpre q (List.mem_cons_of_mem _ hq)) run
    simp only [List.cons_append, seqLoop, List.mem_flatMap]
    constructor
    · rintro ⟨⟨s, r⟩, hrun, hmem⟩
      have hr : r = none := hpre p (by simp) _ hrun
      subst hr
      simp only [List.mem_map] at hmem
      obtain ⟨rest, hrest, rfl⟩ := hmem
      obtain ⟨ts, t, e, hts, ht, rfl⟩ := (ih' rest).1 hrest
      exact ⟨s :: ts, t, e, List.Forall₂.cons hrun hts, ht, by simp⟩
    · rintro ⟨ts, t, e, hts, ht, rfl⟩
      cases hts with
      | cons hrun hrest =>
        rename_i s ts
        refine ⟨(s, none), hrun, ?_⟩
        simp only [List.mem_map]
        exact ⟨(ts.flatten ++ t, some e), (ih' _).2 ⟨ts, t, e, hrest, ht, rfl⟩, by simp⟩

theorem gatherLoop_first_failure {L E N C α : Type}
    (f : Cluster L E N C → Runs L (List α × Option E))
    (pre : List (Cluster L E N C)) (op : Cluster L E N C) (post : List (Cluster L E N C))
    (hpre : ∀ p ∈ pre, ∀ run ∈ f p, run.2.2 = none) (hop : ∀ run ∈ f op, run.2.2 ≠ none)
    (acc : List α) (run : Trace L × List α × Option E) :
    run ∈ gatherLoop f (pre ++ op :: post) acc ↔
      ∃ (rs : List (Trace L × List α)) (t : Trace L) (gathered : List α) (e : E),
        List.Forall₂ (fun p r => (r.1, (r.2, none)) ∈ f p) pre rs ∧
          (t, (gathered, some e)) ∈ f op ∧
          run = ((rs.map Prod.fst).flatten ++ t, ([], some e)) := by
  induction pre generalizing run acc with
  | nil =>
    simp only [List.nil_append, gatherLoop, List.mem_flatMap]
    constructor
    · rintro ⟨⟨t, ns, r⟩, hrun, hmem⟩
      cases r with
      | none => exact absurd rfl (hop _ hrun)
      | some e =>
        simp only [List.mem_singleton] at hmem
        exact ⟨[], t, ns, e, List.Forall₂.nil, hrun, by simpa using hmem⟩
    · rintro ⟨rs, t, ns, e, hrs, hrun, rfl⟩
      cases hrs
      exact ⟨(t, (ns, some e)), hrun, by simp⟩
  | cons p pre ih =>
    have ih' := fun acc run => ih (fun q hq => hpre q (List.mem_cons_of_mem _ hq)) acc run
    simp only [List.cons_append, gatherLoop, List.mem_flatMap]
    constructor
    · rintro ⟨⟨s, ns, r⟩, hrun, hmem⟩
      have hr : r = none := hpre p (by simp) _ hrun
      subst hr
      simp only [List.mem_map] at hmem
      obtain ⟨rest, hrest, rfl⟩ := hmem
      obtain ⟨rs, t, gathered, e, hrs, ht, rfl⟩ := (ih' _ rest).1 hrest
      exact ⟨(s, ns) :: rs, t, gathered, e, List.Forall₂.cons hrun hrs, ht, by simp⟩
    · rintro ⟨rs, t, gathered, e, hrs, ht, rfl⟩
      cases hrs with
      | cons hrun hrest =>
        rename_i r rs
        refine ⟨(r.1, (r.2, none)), hrun, ?_⟩
        simp only [List.mem_map]
        exact ⟨((rs.map Prod.fst).flatten ++ t, ([], some e)),
          (ih' _ _).2 ⟨rs, t, gathered, e, hrest, ht, rfl⟩, by simp⟩


/-! ## Inventory of succeeding leaves, and loops that stop at the first failure -/

/-- C1: for every tree of nested groups and composites over leaves whose
`GetNodes` and `GetClientNodes` succeed, the root's `GetNodes` (resp.
`GetClientNodes`) has exactly one run: it queries the leaves depth first in
declared order, returns no error, and returns the concatenation of the leaves'
own node (resp. client node) sequences in that order. -/
theorem inventory_is_concatenation_of_leaves {L E N C : Type} (env : LeafOutcomes L E N C)
    (t : Tree L) (hn : ∀ l ∈ t.leaves, (env.GetNodes l).2 = none)
    (hc : ∀ l ∈ t.leaves, (env.GetClientNodes l).2 = none) :
    (t.build env).GetNodes =
        [(leafEvents .GetNodes t.leaves, (t.leaves.flatMap fun l => (env.GetNodes l).1, none))] ∧
      (t.build env).GetClientNodes =
        [(leafEvents .GetClientNodes t.leaves,
          (t.leaves.flatMap fun l => (env.GetClientNodes l).1, none))] :=
  ⟨inventory_of_succeeding_leaves env _ _ _ (isInventory_GetNodes env) t hn,
    inventory_of_succeeding_leaves env _ _ _ (isInventory_GetClientNodes env) t hc⟩

theorem inventory_is_concatenation_of_leaves_witness :
    (exampleTree.build (exampleOutcomes [])).GetNodes =
        [([.call .GetNodes 1, .ret .GetNodes 1, .call .GetNodes 2, .ret .GetNodes 2,
            .call .GetNodes 3, .ret .GetNodes 3, .call .GetNodes 4, .ret .GetNodes 4],
          ([1, 11, 2, 12, 3, 13, 4, 14], none))] ∧
      (exampleTree.build (exampleOutcomes [])).GetClientNodes =
        [([.call .GetClientNodes 1, .ret .GetClientNodes 1, .call .GetClientNodes 2,
            .ret .GetClientNodes 2, .call .GetClientNodes 3, .ret .GetClientNodes 3,
            .call .GetClientNodes 4, .ret .GetClientNodes 4],
          ([101, 102, 103, 104], none))] :=
  inventory_is_concatenation_of_leaves (exampleOutcomes []) exampleTree (by decide) (by decide)

/-- C2: in a composite whose children before `op` all succeed at `Apply` and
whose child `op` fails, the runs of `Apply` are exactly: one run of each child
before `op`, in declared order, then one run of `op`, returning the error `op`
returned.  Nothing of the children after `op` takes part. -/
theorem composite_apply_stops_at_first_failure {L E N C : Type}
    (pre : List (Cluster L E N C)) (op : Cluster L E N C) (post : List (Cluster L E N C))
    (hpre : ∀ p ∈ pre, ∀ run ∈ p.Apply, run.2 = none) (hop : ∀ run ∈ op.Apply, run.2 ≠ none)
    (run : Trace L × Option E) :
    run ∈ (NewCompositeCluster (pre ++ op :: post)).Apply ↔
      ∃ (ts : List (Trace L)) (t : Trace L) (e : E),
        List.Forall₂ (fun p s => (s, none) ∈ p.Apply) pre ts ∧ (t, some e) ∈ op.Apply ∧
          run = (ts.flatten ++ t, some e) := by
  rw [compositeCluster.Apply, compositeCluster_Apply_loop_eq]
  exact seqLoop_first_failure Cluster.Apply pre op post hpre hop run

theorem composite_apply_stops_at_first_failure_witness :
    (([.call .Apply 0, .ret .Apply 0, .call .Apply 1, .ret .Apply 1, .call .Apply 2,
          .ret .Apply 2], some 502) : Trace Nat × Option Nat) ∈
        (NewCompositeCluster
          ([leafCluster (exampleOutcomes [2, 3]) 0, leafCluster (exampleOutcomes [2, 3]) 1] ++
            leafCluster (exampleOutcomes [2, 3]) 2 ::
              [leafCluster (exampleOutcomes [2, 3]) 3])).Apply :=
  (composite_apply_stops_at_first_failure
      [leafCluster (exampleOutcomes [2, 3]) 0, leafCluster (exampleOutcomes [2, 3]) 1]
      (leafCluster (exampleOutcomes [2, 3]) 2) [leafCluster (exampleOutcomes [2, 3]) 3]
      (by decide) (by decide) _).2
    ⟨[[.call .Apply 0, .ret .Apply 0], [.call .Apply 1, .ret .Apply 1]],
      [.call .Apply 2, .ret .Apply 2], 502, by simp [leafCluster, exampleOutcomes],
      by simp [leafCluster, exampleOutcomes], rfl⟩

/-- C3: in a composite whose children all succeed at `Delete`, the runs of
`Delete` are exactly one run of each child in declared order (first child first,
as `Apply` visits them), returning no error; and when the children before `op`
succeed and `op` fails, the runs are one run of each child before `op`, in
declared order, then one run of `op`, returning the error `op` returned. -/
theorem composite_delete_in_declared_order {L E N C : Type} (ops : List (Cluster L E N C)) :
    ((∀ p ∈ ops, ∀ run ∈ p.Delete, run.2 = none) →
      ∀ run : Trace L × Option E,
        run ∈ (NewCompositeCluster ops).Delete ↔
          ∃ ts : List (Trace L), List.Forall₂ (fun p s => (s, none) ∈ p.Delete) ops ts ∧
            run = (ts.flatten, none)) ∧
      (∀ (pre : List (Cluster L E N C)) (op : Cluster L E N C) (post : List (Cluster L E N C)),
        ops = pre ++ op :: post → (∀ p ∈ pre, ∀ run ∈ p.Delete, run.2 = none) →
          (∀ run ∈ op.Delete, run.2 ≠ none) →
        ∀ run : Trace L × Option E,
          run ∈ (NewCompositeCluster ops).Delete ↔
            ∃ (ts : List (Trace L)) (t : Trace L) (e : E),
              List.Forall₂ (fun p s => (s, none) ∈ p.Delete) pre ts ∧
                (t, some e) ∈ op.Delete ∧ run = (ts.flatten ++ t, some e)) := by
  constructor
  · intro h run
    rw [compositeCluster.Delete, compositeCluster_Delete_loop_eq]
    exact seqLoop_all_succeed Cluster.Delete ops h run
  · rintro pre op post rfl hpre hop run
    rw [compositeCluster.Delete, compositeCluster_Delete_loop_eq]
    exact seqLoop_first_failure Cluster.Delete pre op post hpre hop run

theorem composite_delete_in_declared_order_witness :
    (([.call .Delete 0, .ret .Delete 0, .call .Delete 1, .ret .Delete 1, .call .Delete 2,
          .ret .Delete 2], none) : Trace Nat × Option Nat) ∈
        (NewCompositeCluster
          [leafCluster (exampleOutcomes []) 0, leafCluster (exampleOutcomes []) 1,
            leafCluster (exampleOutcomes []) 2]).Delete ∧
      (([.call .Delete 0, .ret .Delete 0, .call .Delete 1, .ret .Delete 1], some 501) :
          Trace Nat × Option Nat) ∈
        (NewCompositeCluster
          [leafCluster (exampleOutcomes [1]) 0, leafCluster (exampleOutcomes [1]) 1,
            leafCluster (exampleOutcomes [1]) 2]).Delete :=
  ⟨((composite_delete_in_declared_order _).1 (by decide) _).2
      ⟨[[.call .Delete 0, .ret .Delete 0], [.call .Delete 1, .ret .Delete 1],
          [.call .Delete 2, .ret .Delete 2]],
        by simp [leafCluster, exampleOutcomes], rfl⟩,
    ((composite_delete_in_declared_order _).2 [leafCluster (exampleOutcomes [1]) 0]
        (leafCluster (exampleOutcomes [1]) 1) [leafCluster (exampleOutcomes [1]) 2] rfl
        (by decide) (by decide) _).2
      ⟨[[.call .Delete 0, .ret .Delete 0]], [.call .Delete 1, .ret .Delete 1], 501,
        by simp [leafCluster, exampleOutcomes], by simp [leafCluster, exampleOutcomes], rfl⟩⟩


/-- C4: in a group or composite whose children before `op` succeed at `GetNodes`
(resp. `GetClientNodes`) and whose child `op` fails, the runs of the combinator's
`GetNodes` (resp. `GetClientNodes`) are exactly: one run of each child before
`op`, in declared order, then one run of `op`, returning the empty sequence
together with the error `op` returned.  What the earlier children (or `op`
itself) reported is not returned. -/
theorem inventory_fails_with_first_child_error {L E N C : Type}
    (pre : List (Cluster L E N C)) (op : Cluster L E N C) (post : List (Cluster L E N C)) :
    ((∀ p ∈ pre, ∀ run ∈ p.GetNodes, run.2.2 = none) → (∀ run ∈ op.GetNodes, run.2.2 ≠ none) →
      ∀ run : Trace L × List N × Option E,
        ((run ∈ (NewGroupCluster (pre ++ op :: post)).GetNodes ↔
          ∃ (rs : List (Trace L × List N)) (t : Trace L) (gathered : List N) (e : E),
            List.Forall₂ (fun p r => (r.1, (r.2, none)) ∈ p.GetNodes) pre rs ∧
              (t, (gathered, some e)) ∈ op.GetNodes ∧
              run = ((rs.map Prod.fst).flatten ++ t, ([], some e))) ∧
        (run ∈ (NewCompositeCluster (pre ++ op :: post)).GetNodes ↔
          ∃ (rs : List (Trace L × List N)) (t : Trace L) (gathered : List N) (e : E),
            List.Forall₂ (fun p r => (r.1, (r.2, none)) ∈ p.GetNodes) pre rs ∧
              (t, (gathered, some e)) ∈ op.GetNodes ∧
              run = ((rs.map Prod.fst).flatten ++ t, ([], some e))))) ∧
    ((∀ p ∈ pre, ∀ run ∈ p.GetClientNodes, run.2.2 = none) →
      (∀ run ∈ op.GetClientNodes, run.2.2 ≠ none) →
      ∀ run : Trace L × List C × Option E,
        ((run ∈ (NewGroupCluster (pre ++ op :: post)).GetClientNodes ↔
          ∃ (rs : List (Trace L × List C)) (t : Trace L) (gathered : List C) (e : E),
            List.Forall₂ (fun p r => (r.1, (r.2, none)) ∈ p.GetClientNodes) pre rs ∧
              (t, (gathered, some e)) ∈ op.GetClientNodes ∧
              run = ((rs.map Prod.fst).flatten ++ t, ([], some e))) ∧
        (run ∈ (NewCompositeCluster (pre ++ op :: post)).GetClientNodes ↔
          ∃ (rs : List (Trace L × List C)) (t : Trace L) (gathered : List C) (e : E),
            List.Forall₂ (fun p r => (r.1, (r.2, none)) ∈ p.GetClientNodes) pre rs ∧
              (t, (gathered, some e)) ∈ op.GetClientNodes ∧
              run = ((rs.map Prod.fst).flatten ++ t, ([], some e))))) := by
  refine ⟨fun hpre hop run => ⟨?_, ?_⟩, fun hpre hop run => ⟨?_, ?_⟩⟩
  · rw [groupCluster.GetNodes, groupCluster_GetNodes_loop_eq]
    exact gatherLoop_first_failure Cluster.GetNodes pre op post hpre hop [] run
  · rw [compositeCluster.GetNodes, compositeCluster_GetNodes_loop_eq]
    exact gatherLoop_first_failure Cluster.GetNodes pre op post hpre hop [] run
  · rw [groupCluster.GetClientNodes, groupCluster_GetClientNodes_loop_eq]
    exact gatherLoop_first_failure Cluster.GetClientNodes pre op post hpre hop [] run
  · rw [compositeCluster.GetClientNodes, compositeCluster_GetClientNodes_loop_eq]
    exact gatherLoop_first_failure Cluster.GetClientNodes pre op post hpre hop [] run

theorem inventory_fails_with_first_child_error_witness :
    (([.call .GetNodes 0, .ret .GetNodes 0, .call .GetNodes 1, .ret .GetNodes 1],
          ([], some 501)) : Trace Nat × List Nat × Option Nat) ∈
        (NewGroupCluster
          ([leafCluster (exampleOutcomes [1, 2]) 0] ++ leafCluster (exampleOutcomes [1, 2]) 1 ::
            [leafCluster (exampleOutcomes [1, 2]) 2])).GetNodes ∧
      (([.call .GetClientNodes 0, .ret .GetClientNodes 0, .call .GetClientNodes 1,
          .ret .GetClientNodes 1], ([], some 501)) : Trace Nat × List Nat × Option Nat) ∈
        (NewCompositeCluster
          ([leafCluster (exampleOutcomes [1, 2]) 0] ++ leafCluster (exampleOutcomes [1, 2]) 1 ::
            [leafCluster (exampleOutcomes [1, 2]) 2])).GetClientNodes :=
  ⟨(((inventory_fails_with_first_child_error [leafCluster (exampleOutcomes [1, 2]) 0]
        (leafCluster (exampleOutcomes [1, 2]) 1) [leafCluster (exampleOutcomes [1, 2]) 2]).1
        (by decide) (by decide) _).1).2
      ⟨[([.call .GetNodes 0, .ret .GetNodes 0], [0, 10])], [.call .GetNodes 1, .ret .GetNodes 1],
        [1, 11], 501, by simp [leafCluster, exampleOutcomes],
        by simp [leafCluster, exampleOutcomes], rfl⟩,
    (((inventory_fails_with_first_child_error [leafCluster (exampleOutcomes [1, 2]) 0]
        (leafCluster (exampleOutcomes [1, 2]) 1) [leafCluster (exampleOutcomes [1, 2]) 2]).2
        (by decide) (by decide) _).2).2
      ⟨[([.call .GetClientNodes 0, .ret .GetClientNodes 0], [100])],
        [.call .GetClientNodes 1, .ret .GetClientNodes 1], [101], 501,
        by simp [leafCluster, exampleOutcomes], by simp [leafCluster, exampleOutcomes], rfl⟩⟩

/-! ## Runs of a group, and a composite over a group -/

theorem Wait_run_of_children {L E N C : Type} (f : Cluster L E N C → Runs L (Option E))
    (ops : List (Cluster L E N C)) (run : Trace L × Option E)
    (h : run ∈ (errgroup.Group.mk (ops.map f)).Wait) :
    ∃ runs : List (Trace L × Option E), List.Forall₂ (fun op r => r ∈ f op) ops runs ∧
      run.1 ∈ interleavings (runs.map Prod.fst) ∧
      (run.2 ≠ none ↔ ∃ r ∈ runs, r.2 ≠ none) ∧
      (∀ e, run.2 = some e → ∃ r ∈ runs, r.2 = some e) := by
  obtain ⟨tr, r⟩ := run
  obtain ⟨runs, hruns, htr, herr⟩ := (mem_Wait_map f ops tr r).1 h
  refine ⟨runs, hruns, htr, ?_, ?_⟩
  · rcases (mem_firstError _ r).1 herr with ⟨rfl, hall⟩ | ⟨e, rfl, he⟩
    · constructor
      · intro hne; exact absurd rfl hne
      · rintro ⟨r', hr', hne⟩
        exact absurd (hall r'.2 (List.mem_map_of_mem _ hr')) hne
    · constructor
      · intro _
        obtain ⟨r', hr', heq⟩ := List.mem_map.1 he
        exact ⟨r', hr', by simp [heq]⟩
      · intro _; simp
  · intro e he
    simp only at he
    subst he
    rcases (mem_firstError _ _).1 herr with ⟨hne, _⟩ | ⟨e', heq, he'⟩
    · simp at hne
    · obtain ⟨r', hr', heq'⟩ := List.mem_map.1 he'
      simp only [Option.some.injEq] at heq
      subst heq
      exact ⟨r', hr', heq'⟩


/-- The runs of `Apply` on a group of two leaves: any interleaving of the two
leaf calls, returning `nil` when both succeed and else the error of a failing
one. -/
theorem group_of_two_leaves_Apply {L E N C : Type} (env : LeafOutcomes L E N C) (a b : L)
    (g : Trace L) (r : Option E)
    (h : (g, r) ∈
      (NewGroupCluster [leafCluster env a, leafCluster env b]).Apply) :
    g.Perm [.call .Apply a, .ret .Apply a, .call .Apply b, .ret .Apply b] ∧
      [Event.call .Apply a, .ret .Apply a].Sublist g ∧
      [Event.call .Apply b, .ret .Apply b].Sublist g ∧
      ((r = none ∧ env.Apply a = none ∧ env.Apply b = none) ∨
        (r ≠ none ∧ (r = env.Apply a ∨ r = env.Apply b))) := by
  rw [groupCluster_Apply_eq] at h
  obtain ⟨runs, hruns, htr, herr⟩ := (mem_Wait_map Cluster.Apply _ g r).1 h
  cases hruns with
  | cons ha hrest =>
    cases hrest with
    | cons hb hnil =>
      cases hnil
      simp only [leafCluster, List.mem_singleton] at ha hb
      subst ha hb
      simp only [List.map_cons, List.map_nil] at htr herr
      refine ⟨by simpa using interleavings_perm _ _ htr,
        interleavings_sublist _ _ htr _ (by simp),
        interleavings_sublist _ _ htr _ (by simp), ?_⟩
      rcases (mem_firstError _ r).1 herr with ⟨rfl, hall⟩ | ⟨e, rfl, he⟩
      · exact Or.inl ⟨rfl, hall _ (by simp), hall _ (by simp)⟩
      · refine Or.inr ⟨by simp, ?_⟩
        simp only [List.mem_cons, List.mem_singleton, List.not_mem_nil, or_false] at he
        exact he

/-- C7: on `Composite(Group(A, B), C)` every run of `Apply` starts with the
whole of `A.Apply` and `B.Apply`, interleaved in any way.  If both succeeded,
`C.Apply` is entered after both have returned and its result is the result of
the root.  If `A` or `B` failed, the run ends there: the root returns the error
of a failing one of them and `C.Apply` is not entered, although the calls of
both `A` and `B` took place. -/
theorem composite_of_group_applies_last_child_after_group {L E N C : Type}
    (env : LeafOutcomes L E N C) (a b c : L) (run : Trace L × Option E)
    (h : run ∈ ((Tree.composite [.group [.leaf a, .leaf b], .leaf c]).build env).Apply) :
    ∃ g : Trace L,
      g.Perm [.call .Apply a, .ret .Apply a, .call .Apply b, .ret .Apply b] ∧
      [Event.call .Apply a, .ret .Apply a].Sublist g ∧
      [Event.call .Apply b, .ret .Apply b].Sublist g ∧
      ((env.Apply a = none ∧ env.Apply b = none ∧
          run = (g ++ [.call .Apply c, .ret .Apply c], env.Apply c)) ∨
        ((env.Apply a ≠ none ∨ env.Apply b ≠ none) ∧ run.1 = g ∧ run.2 ≠ none ∧
          (run.2 = env.Apply a ∨ run.2 = env.Apply b))) := by
  simp only [Tree.build, Tree.buildList, compositeCluster.asCluster, NewCompositeCluster,
    compositeCluster.Apply, compositeCluster.Apply.loop, groupCluster.asCluster,
    List.mem_flatMap] at h
  obtain ⟨⟨g, r⟩, hg, hmem⟩ := h
  obtain ⟨hperm, hsa, hsb, hres⟩ := group_of_two_leaves_Apply env a b g r hg
  refine ⟨g, hperm, hsa, hsb, ?_⟩
  rcases hres with ⟨rfl, ha, hb⟩ | ⟨hne, hr⟩
  · left
    simp only [leafCluster, List.flatMap_cons, List.flatMap_nil, List.append_nil,
      List.mem_map] at hmem
    obtain ⟨rest, hrest, rfl⟩ := hmem
    refine ⟨ha, hb, ?_⟩
    cases hc : env.Apply c with
    | none =>
      rw [hc] at hrest
      simp only [List.map_cons, List.map_nil, List.mem_singleton] at hrest
      subst hrest
      simp
    | some e =>
      rw [hc] at hrest
      simp only [List.mem_singleton] at hrest
      subst hrest
      rfl
  · right
    cases r with
    | none => exact absurd rfl hne
    | some e =>
      simp only [List.mem_singleton] at hmem
      subst hmem
      refine ⟨?_, rfl, by simp, hr⟩
      rcases hr with hr | hr
      · exact Or.inl (by rw [← hr]; simp)
      · exact Or.inr (by rw [← hr]; simp)

theorem composite_of_group_applies_last_child_after_group_witness :
    (([.call .Apply 1, .call .Apply 0, .ret .Apply 0, .ret .Apply 1], some 500) :
        Trace Nat × Option Nat) ∈
        ((Tree.composite [.group [.leaf 0, .leaf 1], .leaf 2]).build
          (exampleOutcomes [0])).Apply ∧
      ∃ g : Trace Nat,
        g.Perm [.call .Apply 0, .ret .Apply 0, .call .Apply 1, .ret .Apply 1] ∧
        [Event.call .Apply 0, .ret .Apply 0].Sublist g ∧
        [Event.call .Apply 1, .ret .Apply 1].Sublist g ∧
        (((exampleOutcomes [0]).Apply 0 = none ∧ (exampleOutcomes [0]).Apply 1 = none ∧
            (([.call .Apply 1, .call .Apply 0, .ret .Apply 0, .ret .Apply 1], some 500) :
              Trace Nat × Option Nat) =
              (g ++ [.call .Apply 2, .ret .Apply 2], (exampleOutcomes [0]).Apply 2)) ∨
          (((exampleOutcomes [0]).Apply 0 ≠ none ∨ (exampleOutcomes [0]).Apply 1 ≠ none) ∧
            [.call .Apply 1, .call .Apply 0, .ret .Apply 0, .ret .Apply 1] = g ∧
            some 500 ≠ none ∧
            (some 500 = (exampleOutcomes [0]).Apply 0 ∨
              some 500 = (exampleOutcomes [0]).Apply 1))) :=
  ⟨by decide,
    composite_of_group_applies_last_child_after_group (exampleOutcomes [0]) 0 1 2
      ([.call .Apply 1, .call .Apply 0, .ret .Apply 0, .ret .Apply 1], some 500) (by decide)⟩


/-! ## Calls in a trace -/

theorem calls_append {L : Type} (o : Op) (s t : Trace L) :
    calls o (s ++ t) = calls o s ++ calls o t := by
  simp [calls, List.filterMap_append]

theorem calls_leafEvents {L : Type} (o : Op) (ls : List L) : calls o (leafEvents o ls) = ls := by
  induction ls with
  | nil => rfl
  | cons l ls ih =>
    have h : leafEvents o (l :: ls) = [.call o l, .ret o l] ++ leafEvents o ls := by
      simp [leafEvents]
    rw [h, calls_append, ih]
    simp [calls, Event.callOf]

theorem calls_perm {L : Type} (o : Op) (s t : Trace L) (h : s.Perm t) :
    (calls o s).Perm (calls o t) :=
  h.filterMap _

theorem mem_calls {L : Type} (o : Op) (t : Trace L) (l : L) :
    l ∈ calls o t ↔ Event.call o l ∈ t := by
  simp only [calls, List.mem_filterMap]
  constructor
  · rintro ⟨ev, hev, hcall⟩
    cases ev with
    | call o' l' =>
      simp only [Event.callOf] at hcall
      split at hcall
      · rename_i ho
        simp only [Option.some.injEq] at hcall
        subst ho hcall
        exact hev
      · simp at hcall
    | ret o' l' => simp [Event.callOf] at hcall
  · intro h
    exact ⟨_, h, by simp [Event.callOf]⟩

theorem leafEvents_append {L : Type} (o : Op) (xs ys : List L) :
    leafEvents o (xs ++ ys) = leafEvents o xs ++ leafEvents o ys := by
  simp [leafEvents]

/-! ## Existence of runs -/

theorem exists_runs_of_ne_nil {L E N C R : Type} (f : Cluster L E N C → Runs L R)
    (ops : List (Cluster L E N C)) (h : ∀ c ∈ ops, f c ≠ []) :
    ∃ runs : List (Trace L × R), List.Forall₂ (fun c r => r ∈ f c) ops runs := by
  induction ops with
  | nil => exact ⟨[], List.Forall₂.nil⟩
  | cons c ops ih =>
    obtain ⟨runs, hruns⟩ := ih (fun d hd => h d (List.mem_cons_of_mem _ hd))
    obtain ⟨r, hr⟩ := List.exists_mem_of_ne_nil _ (h c (by simp))
    exact ⟨r :: runs, List.Forall₂.cons hr hruns⟩

theorem firstError_ne_nil {E : Type} (errs : List (Option E)) : firstError errs ≠ [] := by
  unfold firstError
  split <;> simp

theorem Wait_ne_nil {L E N C : Type} (f : Cluster L E N C → Runs L (Option E))
    (ops : List (Cluster L E N C)) (h : ∀ c ∈ ops, f c ≠ []) :
    (errgroup.Group.mk (ops.map f)).Wait ≠ [] := by
  obtain ⟨runs, hruns⟩ := exists_runs_of_ne_nil f ops h
  obtain ⟨r, hr⟩ := List.exists_mem_of_ne_nil _ (firstError_ne_nil (runs.map Prod.snd))
  exact List.ne_nil_of_mem
    ((mem_Wait_map f ops _ r).2 ⟨runs, hruns, flatten_mem_interleavings _, hr⟩)

theorem seqLoop_ne_nil {L E N C : Type} (f : Cluster L E N C → Runs L (Option E))
    (ops : List (Cluster L E N C)) (h : ∀ c ∈ ops, f c ≠ []) : seqLoop f ops ≠ [] := by
  induction ops with
  | nil => simp [seqLoop]
  | cons c ops ih =>
    have ih' := ih (fun d hd => h d (List.mem_cons_of_mem _ hd))
    obtain ⟨⟨s, r⟩, hr⟩ := List.exists_mem_of_ne_nil _ (h c (by simp))
    obtain ⟨rest, hrest⟩ := List.exists_mem_of_ne_nil _ ih'
    cases r with
    | none =>
      exact List.ne_nil_of_mem (List.mem_flatMap.2 ⟨(s, none), hr,
        List.mem_map.2 ⟨rest, hrest, rfl⟩⟩)
    | some e =>
      have hmem : (s, some e) ∈ seqLoop f (c :: ops) := by
        simp only [seqLoop, List.mem_flatMap]
        exact ⟨(s, some e), hr, by simp⟩
      exact List.ne_nil_of_mem hmem

theorem gatherLoop_ne_nil {L E N C α : Type} (f : Cluster L E N C → Runs L (List α × Option E))
    (ops : List (Cluster L E N C)) (h : ∀ c ∈ ops, f c ≠ []) (acc : List α) :
    gatherLoop f ops acc ≠ [] := by
  induction ops generalizing acc with
  | nil => simp [gatherLoop]
  | cons c ops ih =>
    have ih' := fun acc => ih (fun d hd => h d (List.mem_cons_of_mem _ hd)) acc
    obtain ⟨⟨s, ns, r⟩, hr⟩ := List.exists_mem_of_ne_nil _ (h c (by simp))
    cases r with
    | none =>
      obtain ⟨rest, hrest⟩ := List.exists_mem_of_ne_nil _ (ih' (acc ++ ns))
      exact List.ne_nil_of_mem (List.mem_flatMap.2 ⟨(s, ns, none), hr,
        List.mem_map.2 ⟨rest, hrest, rfl⟩⟩)
    | some e =>
      have hmem : (s, ([], some e)) ∈ gatherLoop f (c :: ops) acc := by
        simp only [gatherLoop, List.mem_flatMap]
        exact ⟨(s, ns, some e), hr, by simp⟩
      exact List.ne_nil_of_mem hmem

/-! ## Trees of succeeding leaves -/

theorem runs_of_succeeding_children {L E N C : Type} (f : Cluster L E N C → Runs L (Option E))
    (ops : List (Cluster L E N C)) (runs : List (Trace L × Option E))
    (hruns : List.Forall₂ (fun c r => r ∈ f c) ops runs)
    (h : ∀ p ∈ ops, ∀ run ∈ f p, run.2 = none) :
    (∀ cr ∈ runs, cr.2 = none) ∧
      List.Forall₂ (fun p s => (s, none) ∈ f p) ops (runs.map Prod.fst) := by
  induction hruns with
  | nil => exact ⟨by simp, List.Forall₂.nil⟩
  | @cons c cr cs crs hhead _ ih =>
    obtain ⟨h1, h2⟩ := ih (fun p hp => h p (List.mem_cons_of_mem _ hp))
    have hcr : cr.2 = none := h c (by simp) cr hhead
    refine ⟨?_, ?_⟩
    · intro x hx
      rcases List.mem_cons.1 hx with rfl | hmem
      · exact hcr
      · exact h1 x hmem
    · rw [List.map_cons]
      refine List.Forall₂.cons ?_ h2
      rw [← hcr]
      exact hhead

theorem Wait_all_succeed {L E N C : Type} (f : Cluster L E N C → Runs L (Option E))
    (ops : List (Cluster L E N C)) (h : ∀ p ∈ ops, ∀ run ∈ f p, run.2 = none)
    (run : Trace L × Option E) (hrun : run ∈ (errgroup.Group.mk (ops.map f)).Wait) :
    run.2 = none ∧
      ∃ ts : List (Trace L), List.Forall₂ (fun p s => (s, none) ∈ f p) ops ts ∧
        run.1.Perm ts.flatten := by
  obtain ⟨tr, r⟩ := run
  obtain ⟨runs, hruns, htr, herr⟩ := (mem_Wait_map f ops tr r).1 hrun
  obtain ⟨hnone, hfst⟩ := runs_of_succeeding_children f ops runs hruns h
  refine ⟨?_, runs.map Prod.fst, hfst, interleavings_perm _ _ htr⟩
  rcases (mem_firstError _ r).1 herr with ⟨rfl, _⟩ | ⟨e, rfl, he⟩
  · rfl
  · obtain ⟨cr, hcr, heq⟩ := List.mem_map.1 he
    have := hnone cr hcr
    rw [heq] at this
    exact absurd this (by simp)

theorem lifecycle_of_succeeding_leaves {L E N C : Type} (env : LeafOutcomes L E N C)
    (f : Cluster L E N C → Runs L (Option E)) (out : L → Option E) (o : Op)
    (hf : IsLifecycle env f out o) (t : Tree L) :
    (∀ l ∈ t.leaves, out l = none) →
      f (t.build env) ≠ [] ∧
        ∀ run ∈ f (t.build env), run.2 = none ∧ run.1.Perm (leafEvents o t.leaves) := by
  refine Tree_induct
    (fun t => (∀ l ∈ t.leaves, out l = none) →
      f (t.build env) ≠ [] ∧
        ∀ run ∈ f (t.build env), run.2 = none ∧ run.1.Perm (leafEvents o t.leaves))
    (fun ts => (∀ l ∈ Tree.leavesList ts, out l = none) →
      (∀ c ∈ Tree.buildList env ts, f c ≠ []) ∧
      (∀ c ∈ Tree.buildList env ts, ∀ run ∈ f c, run.2 = none) ∧
      ∀ trs : List (Trace L),
        List.Forall₂ (fun c s => (s, none) ∈ f c) (Tree.buildList env ts) trs →
          trs.flatten.Perm (leafEvents o (Tree.leavesList ts)))
    ?_ ?_ ?_ ?_ ?_ t
  · intro l hl
    have h := hl l (by simp [Tree.leaves])
    rw [Tree.build, hf.leaf]
    refine ⟨by simp, ?_⟩
    intro run hrun
    simp only [List.mem_singleton] at hrun
    subst hrun
    exact ⟨h, by simp [Tree.leaves, leafEvents]⟩
  · intro ts ih hl
    obtain ⟨hne, hnone, hperm⟩ := ih (by simpa [Tree.leaves] using hl)
    rw [Tree.build, hf.group]
    refine ⟨Wait_ne_nil f _ hne, ?_⟩
    intro run hrun
    obtain ⟨hr, trs, htrs, hp⟩ := Wait_all_succeed f _ hnone run hrun
    exact ⟨hr, hp.trans (by simpa [Tree.leaves] using hperm trs htrs)⟩
  · intro ts ih hl
    obtain ⟨hne, hnone, hperm⟩ := ih (by simpa [Tree.leaves] using hl)
    rw [Tree.build, hf.composite]
    refine ⟨seqLoop_ne_nil f _ hne, ?_⟩
    intro run hrun
    obtain ⟨trs, htrs, rfl⟩ := (seqLoop_all_succeed f _ hnone run).1 hrun
    exact ⟨rfl, by simpa [Tree.leaves] using hperm trs htrs⟩
  · intro _
    refine ⟨by simp [Tree.buildList], by simp [Tree.buildList], ?_⟩
    intro trs htrs
    simp only [Tree.buildList] at htrs
    cases htrs
    simp [Tree.leavesList, leafEvents]
  · intro t ts iht ihts hl
    obtain ⟨hne1, hall1⟩ := iht (fun l h => hl l (by simp [Tree.leavesList, h]))
    obtain ⟨hne2, hnone2, hperm2⟩ := ihts (fun l h => hl l (by simp [Tree.leavesList, h]))
    refine ⟨?_, ?_, ?_⟩
    · intro c hc
      simp only [Tree.buildList, List.mem_cons] at hc
      rcases hc with rfl | hc
      · exact hne1
      · exact hne2 c hc
    · intro c hc run hrun
      simp only [Tree.buildList, List.mem_cons] at hc
      rcases hc with rfl | hc
      · exact (hall1 run hrun).1
      · exact hnone2 c hc run hrun
    · intro trs htrs
      simp only [Tree.buildList] at htrs
      cases htrs with
      | cons hhead hrest =>
        rename_i s trs
        rw [List.flatten_cons, Tree.leavesList, leafEvents_append]
        exact List.Perm.append (hall1 _ hhead).2 (hperm2 trs hrest)

/-- C8: on every tree of nested groups and composites over leaves whose `Apply`
and `Delete` succeed, `Apply` and `Delete` on the root have a run, every run
returns no error, and every run enters each leaf of the tree exactly once for
that operation. -/
theorem apply_delete_succeed_on_succeeding_leaves {L E N C : Type}
    (env : LeafOutcomes L E N C) (t : Tree L) (hA : ∀ l ∈ t.leaves, env.Apply l = none)
    (hD : ∀ l ∈ t.leaves, env.Delete l = none) :
    ((t.build env).Apply ≠ [] ∧
        ∀ run ∈ (t.build env).Apply, run.2 = none ∧ (calls .Apply run.1).Perm t.leaves) ∧
      ((t.build env).Delete ≠ [] ∧
        ∀ run ∈ (t.build env).Delete, run.2 = none ∧ (calls .Delete run.1).Perm t.leaves) := by
  obtain ⟨hneA, hallA⟩ :=
    lifecycle_of_succeeding_leaves env _ _ _ (isLifecycle_Apply env) t hA
  obtain ⟨hneD, hallD⟩ :=
    lifecycle_of_succeeding_leaves env _ _ _ (isLifecycle_Delete env) t hD
  refine ⟨⟨hneA, fun run hrun => ⟨(hallA run hrun).1, ?_⟩⟩,
    ⟨hneD, fun run hrun => ⟨(hallD run hrun).1, ?_⟩⟩⟩
  · have := calls_perm .Apply _ _ (hallA run hrun).2
    rwa [calls_leafEvents] at this
  · have := calls_perm .Delete _ _ (hallD run hrun).2
    rwa [calls_leafEvents] at this

theorem apply_delete_succeed_on_succeeding_leaves_witness :
    (([.call .Apply 2, .call .Apply 1, .ret .Apply 2, .call .Apply 3, .ret .Apply 1,
          .ret .Apply 3, .call .Apply 4, .ret .Apply 4], none) : Trace Nat × Option Nat) ∈
        (exampleTree.build (exampleOutcomes [])).Apply ∧
      (none : Option Nat) = none ∧
      (calls .Apply [.call .Apply 2, .call .Apply 1, .ret .Apply 2, .call .Apply 3,
        .ret .Apply 1, .ret .Apply 3, .call .Apply 4, .ret .Apply 4]).Perm exampleTree.leaves :=
  ⟨by decide,
    (apply_delete_succeed_on_succeeding_leaves (exampleOutcomes []) exampleTree (by decide)
      (by decide)).1.2
      ([.call .Apply 2, .call .Apply 1, .ret .Apply 2, .call .Apply 3, .ret .Apply 1,
        .ret .Apply 3, .call .Apply 4, .ret .Apply 4], none) (by decide)⟩


/-! ## Runs of a combinator are made of runs of its children -/

theorem seqLoop_madeOf {L E N C : Type} (f : Cluster L E N C → Runs L (Option E))
    (ops : List (Cluster L E N C)) (run : Trace L × Option E) (h : run ∈ seqLoop f ops) :
    MadeOf f id ops run := by
  induction ops generalizing run with
  | nil =>
    simp only [seqLoop, List.mem_singleton] at h
    subst h
    exact ⟨[], by simp, by simp, by simp, by simp⟩
  | cons c ops ih =>
    simp only [seqLoop, List.mem_flatMap] at h
    obtain ⟨⟨s, r⟩, hcr, hmem⟩ := h
    cases r with
    | some e =>
      simp only [List.mem_singleton] at hmem
      subst hmem
      exact ⟨[(s, some e)], by simpa using Or.inl hcr, by simp, by simp, by simp⟩
    | none =>
      simp only [List.mem_map] at hmem
      obtain ⟨rest, hrest, rfl⟩ := hmem
      obtain ⟨crs, hcrs, hperm, hnone, hsome⟩ := ih rest hrest
      refine ⟨(s, none) :: crs, ?_, ?_, ?_, ?_⟩
      · intro cr hcr'
        rcases List.mem_cons.1 hcr' with rfl | hmem
        · exact ⟨c, by simp, hcr⟩
        · obtain ⟨d, hd, hrun⟩ := hcrs cr hmem
          exact ⟨d, List.mem_cons_of_mem _ hd, hrun⟩
      · simpa using List.Perm.append_left s hperm
      · intro hr cr hcr'
        rcases List.mem_cons.1 hcr' with rfl | hmem
        · rfl
        · exact hnone hr cr hmem
      · intro e he
        obtain ⟨cr, hcr', hcre⟩ := hsome e he
        exact ⟨cr, List.mem_cons_of_mem _ hcr', hcre⟩

theorem gatherLoop_madeOf {L E N C α : Type}
    (f : Cluster L E N C → Runs L (List α × Option E))
    (ops : List (Cluster L E N C)) (acc : List α) (run : Trace L × List α × Option E)
    (h : run ∈ gatherLoop f ops acc) : MadeOf f Prod.snd ops run := by
  induction ops generalizing run acc with
  | nil =>
    simp only [gatherLoop, List.mem_singleton] at h
    subst h
    exact ⟨[], by simp, by simp, by simp, by simp⟩
  | cons c ops ih =>
    simp only [gatherLoop, List.mem_flatMap] at h
    obtain ⟨⟨s, ns, r⟩, hcr, hmem⟩ := h
    cases r with
    | some e =>
      simp only [List.mem_singleton] at hmem
      subst hmem
      exact ⟨[(s, ns, some e)], by simpa using Or.inl hcr, by simp, by simp, by simp⟩
    | none =>
      simp only [List.mem_map] at hmem
      obtain ⟨rest, hrest, rfl⟩ := hmem
      obtain ⟨crs, hcrs, hperm, hnone, hsome⟩ := ih _ rest hrest
      refine ⟨(s, ns, none) :: crs, ?_, ?_, ?_, ?_⟩
      · intro cr hcr'
        rcases List.mem_cons.1 hcr' with rfl | hmem
        · exact ⟨c, by simp, hcr⟩
        · obtain ⟨d, hd, hrun⟩ := hcrs cr hmem
          exact ⟨d, List.mem_cons_of_mem _ hd, hrun⟩
      · simpa using List.Perm.append_left s hperm
      · intro hr cr hcr'
        rcases List.mem_cons.1 hcr' with rfl | hmem
        · rfl
        · exact hnone hr cr hmem
      · intro e he
        obtain ⟨cr, hcr', hcre⟩ := hsome e he
        exact ⟨cr, List.mem_cons_of_mem _ hcr', hcre⟩

theorem forall₂_exists_left {α β : Type} {R : α → β → Prop} {as : List α} {bs : List β}
    (h : List.Forall₂ R as bs) (b : β) (hb : b ∈ bs) : ∃ a ∈ as, R a b := by
  induction h with
  | nil => simp at hb
  | @cons a b' as bs hab _ ih =>
    rcases List.mem_cons.1 hb with rfl | hmem
    · exact ⟨a, by simp, hab⟩
    · obtain ⟨a', ha', hr⟩ := ih hmem
      exact ⟨a', List.mem_cons_of_mem _ ha', hr⟩

theorem Wait_madeOf {L E N C : Type} (f : Cluster L E N C → Runs L (Option E))
    (ops : List (Cluster L E N C)) (run : Trace L × Option E)
    (h : run ∈ (errgroup.Group.mk (ops.map f)).Wait) : MadeOf f id ops run := by
  obtain ⟨tr, r⟩ := run
  obtain ⟨runs, hruns, htr, herr⟩ := (mem_Wait_map f ops tr r).1 h
  refine ⟨runs, fun cr hcr => forall₂_exists_left hruns cr hcr, interleavings_perm _ _ htr,
    ?_, ?_⟩
  · intro hr cr hcr
    simp only [id] at hr
    subst hr
    rcases (mem_firstError _ _).1 herr with ⟨_, hall⟩ | ⟨e, he, _⟩
    · exact hall _ (List.mem_map_of_mem _ hcr)
    · simp at he
  · intro e he
    simp only [id] at he
    subst he
    rcases (mem_firstError _ _).1 herr with ⟨hne, _⟩ | ⟨e', heq, he'⟩
    · simp at hne
    · obtain ⟨cr, hcr, hcre⟩ := List.mem_map.1 he'
      exact ⟨cr, hcr, by simpa [heq] using hcre⟩

/-- A property of runs that holds of the leaf runs and is handed from the runs
of the children to the runs made of them holds of every run of a lifecycle
method on every tree. -/
theorem lifecycle_runs_induction {L E N C : Type} (env : LeafOutcomes L E N C)
    (f : Cluster L E N C → Runs L (Option E)) (out : L → Option E) (o : Op)
    (hf : IsLifecycle env f out o) (P : Trace L × Option E → Prop)
    (hleaf : ∀ l, P ([.call o l, .ret o l], out l))
    (hstep : ∀ ops run, (∀ c ∈ ops, ∀ r ∈ f c, P r) → MadeOf f id ops run → P run)
    (t : Tree L) : ∀ run ∈ f (t.build env), P run := by
  refine Tree_induct (fun t => ∀ run ∈ f (t.build env), P run)
    (fun ts => ∀ c ∈ Tree.buildList env ts, ∀ run ∈ f c, P run) ?_ ?_ ?_ ?_ ?_ t
  · intro l run hrun
    rw [Tree.build, hf.leaf, List.mem_singleton] at hrun
    subst hrun
    exact hleaf l
  · intro ts ih run hrun
    rw [Tree.build, hf.group] at hrun
    exact hstep _ run ih (Wait_madeOf f _ run hrun)
  · intro ts ih run hrun
    rw [Tree.build, hf.composite] at hrun
    exact hstep _ run ih (seqLoop_madeOf f _ run hrun)
  · intro c hc
    simp [Tree.buildList] at hc
  · intro t ts iht ihts c hc
    simp only [Tree.buildList, List.mem_cons] at hc
    rcases hc with rfl | hc
    · exact iht
    · exact ihts c hc

/-- The same for an inventory method. -/
theorem inventory_runs_induction {L E N C α : Type} (env : LeafOutcomes L E N C)
    (f : Cluster L E N C → Runs L (List α × Option E)) (out : L → List α × Option E) (o : Op)
    (hf : IsInventory env f out o) (P : Trace L × List α × Option E → Prop)
    (hleaf : ∀ l, P ([.call o l, .ret o l], out l))
    (hstep : ∀ ops run, (∀ c ∈ ops, ∀ r ∈ f c, P r) → MadeOf f Prod.snd ops run → P run)
    (t : Tree L) : ∀ run ∈ f (t.build env), P run := by
  refine Tree_induct (fun t => ∀ run ∈ f (t.build env), P run)
    (fun ts => ∀ c ∈ Tree.buildList env ts, ∀ run ∈ f c, P run) ?_ ?_ ?_ ?_ ?_ t
  · intro l run hrun
    rw [Tree.build, hf.leaf, List.mem_singleton] at hrun
    subst hrun
    exact hleaf l
  · intro ts ih run hrun
    rw [Tree.build, hf.group] at hrun
    exact hstep _ run ih (gatherLoop_madeOf f _ [] run hrun)
  · intro ts ih run hrun
    rw [Tree.build, hf.composite] at hrun
    exact hstep _ run ih (gatherLoop_madeOf f _ [] run hrun)
  · intro c hc
    simp [Tree.buildList] at hc
  · intro t ts iht ihts c hc
    simp only [Tree.buildList, List.mem_cons] at hc
    rcases hc with rfl | hc
    · exact iht
    · exact ihts c hc


/-! ## Errors and events of the runs on a tree -/

theorem mem_trace_of_perm_runs {L R : Type} (run : Trace L × R)
    (crs : List (Trace L × R)) (hperm : run.1.Perm (crs.map Prod.fst).flatten) (ev : Event L) :
    ev ∈ run.1 ↔ ∃ cr ∈ crs, ev ∈ cr.1 := by
  rw [hperm.mem_iff, List.mem_flatten]
  constructor
  · rintro ⟨s, hs, hev⟩
    obtain ⟨cr, hcr, rfl⟩ := List.mem_map.1 hs
    exact ⟨cr, hcr, hev⟩
  · rintro ⟨cr, hcr, hev⟩
    exact ⟨cr.1, List.mem_map_of_mem _ hcr, hev⟩

theorem propagates_step {L E N C R : Type} (o : Op) (out : L → R) (err : R → Option E)
    (f : Cluster L E N C → Runs L R) (ops : List (Cluster L E N C)) (run : Trace L × R)
    (hch : ∀ c ∈ ops, ∀ r ∈ f c, Propagates o out err r) (hm : MadeOf f err ops run) :
    Propagates o out err run := by
  obtain ⟨crs, hcrs, hperm, hnone, hsome⟩ := hm
  have hmem := mem_trace_of_perm_runs run crs hperm
  constructor
  · intro hr l hl
    obtain ⟨cr, hcr, hev⟩ := (hmem _).1 ((mem_calls o run.1 l).1 hl)
    obtain ⟨c, hc, hrun⟩ := hcrs cr hcr
    exact (hch c hc cr hrun).1 (hnone hr cr hcr) l ((mem_calls o cr.1 l).2 hev)
  · intro e he
    obtain ⟨cr, hcr, hcre⟩ := hsome e he
    obtain ⟨c, hc, hrun⟩ := hcrs cr hcr
    obtain ⟨l, hl, hle⟩ := (hch c hc cr hrun).2 e hcre
    exact ⟨l, (mem_calls o run.1 l).2 ((hmem _).2 ⟨cr, hcr, (mem_calls o cr.1 l).1 hl⟩), hle⟩

theorem propagates_leaf {L E R : Type} (o : Op) (out : L → R) (err : R → Option E) (l : L) :
    Propagates o out err ([.call o l, .ret o l], out l) := by
  constructor
  · intro h l' hl'
    have : l' = l := by simpa [calls, Event.callOf] using hl'
    rw [this]
    exact h
  · intro e he
    exact ⟨l, by simp [calls, Event.callOf], he⟩

/-- C9: on every tree, for each of the four methods and every run of it on the
root: if a leaf the run entered returned an error, the root returns an error;
and an error the root returns is, unchanged, the error returned by a leaf the
run entered. -/
theorem errors_propagate_unchanged {L E N C : Type} (env : LeafOutcomes L E N C) (t : Tree L) :
    (∀ run ∈ (t.build env).Apply,
      ((∃ l ∈ calls .Apply run.1, env.Apply l ≠ none) → run.2 ≠ none) ∧
        ∀ e, run.2 = some e → ∃ l ∈ calls .Apply run.1, env.Apply l = some e) ∧
    (∀ run ∈ (t.build env).Delete,
      ((∃ l ∈ calls .Delete run.1, env.Delete l ≠ none) → run.2 ≠ none) ∧
        ∀ e, run.2 = some e → ∃ l ∈ calls .Delete run.1, env.Delete l = some e) ∧
    (∀ run ∈ (t.build env).GetNodes,
      ((∃ l ∈ calls .GetNodes run.1, (env.GetNodes l).2 ≠ none) → run.2.2 ≠ none) ∧
        ∀ e, run.2.2 = some e → ∃ l ∈ calls .GetNodes run.1, (env.GetNodes l).2 = some e) ∧
    (∀ run ∈ (t.build env).GetClientNodes,
      ((∃ l ∈ calls .GetClientNodes run.1, (env.GetClientNodes l).2 ≠ none) →
          run.2.2 ≠ none) ∧
        ∀ e, run.2.2 = some e →
          ∃ l ∈ calls .GetClientNodes run.1, (env.GetClientNodes l).2 = some e) := by
  refine ⟨fun run hrun => ?_, fun run hrun => ?_, fun run hrun => ?_, fun run hrun => ?_⟩
  · have h := lifecycle_runs_induction env _ _ _ (isLifecycle_Apply env)
      (Propagates .Apply env.Apply id) (propagates_leaf _ _ _)
      (fun ops run hch hm => propagates_step _ _ _ _ ops run hch hm) t run hrun
    exact ⟨fun ⟨l, hl, hne⟩ hr => hne (h.1 hr l hl), h.2⟩
  · have h := lifecycle_runs_induction env _ _ _ (isLifecycle_Delete env)
      (Propagates .Delete env.Delete id) (propagates_leaf _ _ _)
      (fun ops run hch hm => propagates_step _ _ _ _ ops run hch hm) t run hrun
    exact ⟨fun ⟨l, hl, hne⟩ hr => hne (h.1 hr l hl), h.2⟩
  · have h := inventory_runs_induction env _ _ _ (isInventory_GetNodes env)
      (Propagates .GetNodes env.GetNodes Prod.snd) (propagates_leaf _ _ _)
      (fun ops run hch hm => propagates_step _ _ _ _ ops run hch hm) t run hrun
    exact ⟨fun ⟨l, hl, hne⟩ hr => hne (h.1 hr l hl), h.2⟩
  · have h := inventory_runs_induction env _ _ _ (isInventory_GetClientNodes env)
      (Propagates .GetClientNodes env.GetClientNodes Prod.snd) (propagates_leaf _ _ _)
      (fun ops run hch hm => propagates_step _ _ _ _ ops run hch hm) t run hrun
    exact ⟨fun ⟨l, hl, hne⟩ hr => hne (h.1 hr l hl), h.2⟩

theorem errors_propagate_unchanged_witness :
    (([.call .Apply 0, .call .Apply 1, .ret .Apply 1, .ret .Apply 0], some 501) :
        Trace Nat × Option Nat) ∈
        ((Tree.composite [.group [.leaf 0, .leaf 1], .leaf 2]).build
          (exampleOutcomes [1])).Apply ∧
      (((∃ l ∈ calls .Apply
            [.call .Apply 0, .call .Apply 1, .ret .Apply 1, .ret .Apply 0],
          (exampleOutcomes [1]).Apply l ≠ none) → some 501 ≠ none) ∧
        ∀ e, some 501 = some e →
          ∃ l ∈ calls .Apply [.call .Apply 0, .call .Apply 1, .ret .Apply 1, .ret .Apply 0],
            (exampleOutcomes [1]).Apply l = some e) :=
  ⟨by decide,
    (errors_propagate_unchanged (exampleOutcomes [1])
      (.composite [.group [.leaf 0, .leaf 1], .leaf 2])).1
      ([.call .Apply 0, .call .Apply 1, .ret .Apply 1, .ret .Apply 0], some 501) (by decide)⟩

theorem events_step {L E N C R : Type} (o : Op) (err : R → Option E)
    (f : Cluster L E N C → Runs L R) (ops : List (Cluster L E N C)) (run : Trace L × R)
    (hch : ∀ c ∈ ops, ∀ r ∈ f c, ∀ ev ∈ r.1, ev.op = o) (hm : MadeOf f err ops run) :
    ∀ ev ∈ run.1, ev.op = o := by
  obtain ⟨crs, hcrs, hperm, _, _⟩ := hm
  intro ev hev
  obtain ⟨cr, hcr, hev'⟩ := (mem_trace_of_perm_runs run crs hperm ev).1 hev
  obtain ⟨c, hc, hrun⟩ := hcrs cr hcr
  exact hch c hc cr hrun ev hev'

/-- C10: on every tree and whatever the leaves return, every event of a run
of `Apply` belongs to `Apply`, so no leaf is entered for `Delete` (nothing is
rolled back); every event of a run of `Delete` belongs to `Delete`; and the
runs of `GetNodes` and `GetClientNodes` hold only events of their own method,
so they enter no leaf for `Apply` or `Delete`. -/
theorem each_method_calls_only_itself {L E N C : Type} (env : LeafOutcomes L E N C)
    (t : Tree L) :
    (∀ run ∈ (t.build env).Apply, ∀ ev ∈ run.1, ev.op = .Apply) ∧
    (∀ run ∈ (t.build env).Delete, ∀ ev ∈ run.1, ev.op = .Delete) ∧
    (∀ run ∈ (t.build env).GetNodes, ∀ ev ∈ run.1, ev.op = .GetNodes) ∧
    (∀ run ∈ (t.build env).GetClientNodes, ∀ ev ∈ run.1, ev.op = .GetClientNodes) := by
  refine ⟨?_, ?_, ?_, ?_⟩
  · exact lifecycle_runs_induction env _ _ _ (isLifecycle_Apply env)
      (fun run => ∀ ev ∈ run.1, ev.op = .Apply) (by simp [Event.op])
      (fun ops run hch hm => events_step _ id _ ops run hch hm) t
  · exact lifecycle_runs_induction env _ _ _ (isLifecycle_Delete env)
      (fun run => ∀ ev ∈ run.1, ev.op = .Delete) (by simp [Event.op])
      (fun ops run hch hm => events_step _ id _ ops run hch hm) t
  · exact inventory_runs_induction env _ _ _ (isInventory_GetNodes env)
      (fun run => ∀ ev ∈ run.1, ev.op = .GetNodes) (by simp [Event.op])
      (fun ops run hch hm => events_step _ Prod.snd _ ops run hch hm) t
  · exact inventory_runs_induction env _ _ _ (isInventory_GetClientNodes env)
      (fun run => ∀ ev ∈ run.1, ev.op = .GetClientNodes) (by simp [Event.op])
      (fun ops run hch hm => events_step _ Prod.snd _ ops run hch hm) t

theorem each_method_calls_only_itself_witness :
    (([.call .Apply 1, .ret .Apply 1, .call .Apply 0, .ret .Apply 0], some 501) :
        Trace Nat × Option Nat) ∈
        ((Tree.composite [.group [.leaf 0, .leaf 1], .leaf 2]).build
          (exampleOutcomes [1])).Apply ∧
      ∀ ev ∈ [Event.call .Apply 1, .ret .Apply 1, .call .Apply 0, .ret .Apply 0],
        ev.op = .Apply :=
  ⟨by decide,
    (each_method_calls_only_itself (exampleOutcomes [1])
      (.composite [.group [.leaf 0, .leaf 1], .leaf 2])).1
      ([.call .Apply 1, .ret .Apply 1, .call .Apply 0, .ret .Apply 0], some 501) (by decide)⟩

/-! ## Group and composite share the inventory loop -/

/-- C13: over the same children, a group and a composite have the same runs of
`GetNodes`, and the same runs of `GetClientNodes`: the same child calls in the
same order, the same sequence, the same error. -/
theorem group_and_composite_inventory_agree {L E N C : Type} (cs : List (Cluster L E N C)) :
    (NewGroupCluster cs).GetNodes = (NewCompositeCluster cs).GetNodes ∧
      (NewGroupCluster cs).GetClientNodes = (NewCompositeCluster cs).GetClientNodes := by
  constructor
  · rw [groupCluster.GetNodes, compositeCluster.GetNodes, groupCluster_GetNodes_loop_eq,
      compositeCluster_GetNodes_loop_eq]
    rfl
  · rw [groupCluster.GetClientNodes, compositeCluster.GetClientNodes,
      groupCluster_GetClientNodes_loop_eq, compositeCluster_GetClientNodes_loop_eq]
    rfl


/-! ## Splitting the loops -/

theorem seqLoop_cons {L E N C : Type} (f : Cluster L E N C → Runs L (Option E))
    (op : Cluster L E N C) (ops : List (Cluster L E N C)) :
    seqLoop f (op :: ops) = (f op).flatMap (seqThen (seqLoop f ops)) := rfl

theorem gatherLoop_cons {L E N C α : Type} (f : Cluster L E N C → Runs L (List α × Option E))
    (op : Cluster L E N C) (ops : List (Cluster L E N C)) (acc : List α) :
    gatherLoop f (op :: ops) acc = (f op).flatMap (gatherThen (gatherLoop f ops) acc) := rfl

theorem seqThen_prefixed {L E : Type} (k : Runs L (Option E)) (s : Trace L)
    (rest : Trace L × Option E) :
    seqThen k (s ++ rest.1, rest.2) = (seqThen k rest).map fun r => (s ++ r.1, r.2) := by
  obtain ⟨t, r⟩ := rest
  cases r with
  | some e => simp [seqThen]
  | none => simp [seqThen, List.append_assoc]

theorem seqThen_assoc {L E : Type} (k₁ k₂ : Runs L (Option E)) (run : Trace L × Option E) :
    (seqThen k₁ run).flatMap (seqThen k₂) = seqThen (k₁.flatMap (seqThen k₂)) run := by
  obtain ⟨s, r⟩ := run
  cases r with
  | some e => simp [seqThen]
  | none =>
    simp only [seqThen, List.flatMap_map, List.map_flatMap]
    exact List.flatMap_congr fun rest _ => seqThen_prefixed k₂ s rest

theorem seqLoop_append {L E N C : Type} (f : Cluster L E N C → Runs L (Option E))
    (xs ys : List (Cluster L E N C)) :
    seqLoop f (xs ++ ys) = (seqLoop f xs).flatMap (seqThen (seqLoop f ys)) := by
  induction xs with
  | nil => simp [seqLoop, seqThen]
  | cons x xs ih =>
    rw [List.cons_append, seqLoop_cons, seqLoop_cons, ih, List.flatMap_assoc]
    exact List.flatMap_congr fun run _ => (seqThen_assoc _ _ run).symm

theorem gatherThen_prefixed {L E α : Type} (k : List α → Runs L (List α × Option E))
    (acc : List α) (s : Trace L) (rest : Trace L × List α × Option E) :
    gatherThen k acc (s ++ rest.1, rest.2) =
      (gatherThen k acc rest).map fun r => (s ++ r.1, r.2) := by
  obtain ⟨t, ns, r⟩ := rest
  cases r with
  | some e => simp [gatherThen]
  | none => simp [gatherThen, List.append_assoc]

theorem gatherLoop_append {L E N C α : Type}
    (f : Cluster L E N C → Runs L (List α × Option E)) (ys zs : List (Cluster L E N C))
    (acc acc' : List α) :
    gatherLoop f (ys ++ zs) (acc ++ acc') =
      (gatherLoop f ys acc').flatMap (gatherThen (gatherLoop f zs) acc) := by
  induction ys generalizing acc' with
  | nil => simp [gatherLoop, gatherThen]
  | cons y ys ih =>
    rw [List.cons_append, gatherLoop_cons, gatherLoop_cons, List.flatMap_assoc]
    refine List.flatMap_congr fun run _ => ?_
    obtain ⟨s, ns, r⟩ := run
    cases r with
    | some e => simp [gatherThen]
    | none =>
      simp only [gatherThen, List.flatMap_map]
      rw [List.append_assoc, ih, List.map_flatMap]
      exact List.flatMap_congr fun rest _ => (gatherThen_prefixed _ acc s rest).symm

theorem seqLoop_congr_tail {L E N C : Type} (f : Cluster L E N C → Runs L (Option E))
    (xs t₁ t₂ : List (Cluster L E N C)) (h : seqLoop f t₁ = seqLoop f t₂) :
    seqLoop f (xs ++ t₁) = seqLoop f (xs ++ t₂) := by
  rw [seqLoop_append, seqLoop_append, h]

theorem gatherLoop_congr_tail {L E N C α : Type}
    (f : Cluster L E N C → Runs L (List α × Option E)) (xs t₁ t₂ : List (Cluster L E N C))
    (h : ∀ acc, gatherLoop f t₁ acc = gatherLoop f t₂ acc) (acc : List α) :
    gatherLoop f (xs ++ t₁) acc = gatherLoop f (xs ++ t₂) acc := by
  have h' : gatherLoop f t₁ = gatherLoop f t₂ := funext h
  have := gatherLoop_append f xs t₁ [] acc
  rw [List.nil_append] at this
  rw [this]
  have := gatherLoop_append f xs t₂ [] acc
  rw [List.nil_append] at this
  rw [this, h']

/-- A child whose runs are those of the sequential loop over `ys` can be
replaced by `ys` themselves. -/
theorem seqLoop_flatten {L E N C : Type} (f : Cluster L E N C → Runs L (Option E))
    (xs ys zs : List (Cluster L E N C)) (c : Cluster L E N C) (hc : f c = seqLoop f ys) :
    seqLoop f (xs ++ [c] ++ zs) = seqLoop f (xs ++ ys ++ zs) := by
  rw [List.append_assoc, List.append_assoc]
  apply seqLoop_congr_tail
  rw [List.singleton_append, seqLoop_cons, hc, seqLoop_append]

/-- A child whose runs are those of the inventory loop over `ys` can be
replaced by `ys` themselves. -/
theorem gatherLoop_flatten {L E N C α : Type}
    (f : Cluster L E N C → Runs L (List α × Option E))
    (xs ys zs : List (Cluster L E N C)) (c : Cluster L E N C) (hc : f c = gatherLoop f ys [])
    (acc : List α) :
    gatherLoop f (xs ++ [c] ++ zs) acc = gatherLoop f (xs ++ ys ++ zs) acc := by
  rw [List.append_assoc, List.append_assoc]
  apply gatherLoop_congr_tail
  intro acc
  have := gatherLoop_append f ys zs acc []
  rw [List.append_nil] at this
  rw [List.singleton_append, gatherLoop_cons, hc, this]

theorem Cluster_eq_of_methods {L E N C : Type} (a b : Cluster L E N C)
    (hA : a.Apply = b.Apply) (hD : a.Delete = b.Delete) (hN : a.GetNodes = b.GetNodes)
    (hC : a.GetClientNodes = b.GetClientNodes) : a = b := by
  cases a
  cases b
  simp only [Cluster.mk.injEq]
  exact ⟨hA, hD, hN, hC⟩

theorem composite_asCluster_Apply {L E N C : Type} (ops : List (Cluster L E N C)) :
    (NewCompositeCluster ops).asCluster.Apply = seqLoop Cluster.Apply ops :=
  compositeCluster_Apply_loop_eq ops

theorem composite_asCluster_Delete {L E N C : Type} (ops : List (Cluster L E N C)) :
    (NewCompositeCluster ops).asCluster.Delete = seqLoop Cluster.Delete ops :=
  compositeCluster_Delete_loop_eq ops

theorem composite_asCluster_GetNodes {L E N C : Type} (ops : List (Cluster L E N C)) :
    (NewCompositeCluster ops).asCluster.GetNodes = gatherLoop Cluster.GetNodes ops [] :=
  compositeCluster_GetNodes_loop_eq ops []

theorem composite_asCluster_GetClientNodes {L E N C : Type} (ops : List (Cluster L E N C)) :
    (NewCompositeCluster ops).asCluster.GetClientNodes =
      gatherLoop Cluster.GetClientNodes ops [] :=
  compositeCluster_GetClientNodes_loop_eq ops []

/-- C15: a composite that holds a composite as a child has, for each of the
four methods, exactly the runs of the composite that holds the children of that
child in its place: the same leaf events in the same order, and the same error
or the same sequence. -/
theorem composite_flattens {L E N C : Type} (xs ys zs : List (Cluster L E N C)) :
    (NewCompositeCluster (xs ++ [(NewCompositeCluster ys).asCluster] ++ zs)).asCluster =
      (NewCompositeCluster (xs ++ ys ++ zs)).asCluster := by
  apply Cluster_eq_of_methods
  · rw [composite_asCluster_Apply, composite_asCluster_Apply]
    exact seqLoop_flatten Cluster.Apply xs ys zs _ (composite_asCluster_Apply ys)
  · rw [composite_asCluster_Delete, composite_asCluster_Delete]
    exact seqLoop_flatten Cluster.Delete xs ys zs _ (composite_asCluster_Delete ys)
  · rw [composite_asCluster_GetNodes, composite_asCluster_GetNodes]
    exact gatherLoop_flatten Cluster.GetNodes xs ys zs _ (composite_asCluster_GetNodes ys) []
  · rw [composite_asCluster_GetClientNodes, composite_asCluster_GetClientNodes]
    exact gatherLoop_flatten Cluster.GetClientNodes xs ys zs _
      (composite_asCluster_GetClientNodes ys) []


/-! ## Combinators without children -/

theorem group_empty_Apply {L E N C : Type} :
    (NewGroupCluster ([] : List (Cluster L E N C))).Apply = [([], none)] := rfl

theorem group_empty_Delete {L E N C : Type} :
    (NewGroupCluster ([] : List (Cluster L E N C))).Delete = [([], none)] := rfl

/-- C16: a group or composite without children does nothing: `Apply` and
`Delete` have the single run that enters no leaf and returns no error, and
`GetNodes` and `GetClientNodes` have the single run that enters no leaf and
returns the empty sequence with no error.  Hence a composite that holds an empty
group or an empty composite among its children has, for all four methods, the
runs of the composite without that child. -/
theorem empty_combinator_is_neutral {L E N C : Type} (xs zs : List (Cluster L E N C)) :
    ((NewGroupCluster ([] : List (Cluster L E N C))).Apply = [([], none)] ∧
      (NewGroupCluster ([] : List (Cluster L E N C))).Delete = [([], none)] ∧
      (NewGroupCluster ([] : List (Cluster L E N C))).GetNodes = [([], ([], none))] ∧
      (NewGroupCluster ([] : List (Cluster L E N C))).GetClientNodes = [([], ([], none))]) ∧
    ((NewCompositeCluster ([] : List (Cluster L E N C))).Apply = [([], none)] ∧
      (NewCompositeCluster ([] : List (Cluster L E N C))).Delete = [([], none)] ∧
      (NewCompositeCluster ([] : List (Cluster L E N C))).GetNodes = [([], ([], none))] ∧
      (NewCompositeCluster ([] : List (Cluster L E N C))).GetClientNodes =
        [([], ([], none))]) ∧
    (NewCompositeCluster (xs ++ [(NewGroupCluster []).asCluster] ++ zs)).asCluster =
      (NewCompositeCluster (xs ++ zs)).asCluster ∧
    (NewCompositeCluster (xs ++ [(NewCompositeCluster []).asCluster] ++ zs)).asCluster =
      (NewCompositeCluster (xs ++ zs)).asCluster := by
  refine ⟨⟨rfl, rfl, rfl, rfl⟩, ⟨rfl, rfl, rfl, rfl⟩, ?_, ?_⟩
  · have hx : xs ++ zs = xs ++ [] ++ zs := by simp
    rw [hx]
    apply Cluster_eq_of_methods
    · rw [composite_asCluster_Apply, composite_asCluster_Apply]
      exact seqLoop_flatten Cluster.Apply xs [] zs (NewGroupCluster ([] : List (Cluster L E N C))).asCluster
        (@group_empty_Apply L E N C)
    · rw [composite_asCluster_Delete, composite_asCluster_Delete]
      exact seqLoop_flatten Cluster.Delete xs [] zs (NewGroupCluster ([] : List (Cluster L E N C))).asCluster
        (@group_empty_Delete L E N C)
    · rw [composite_asCluster_GetNodes, composite_asCluster_GetNodes]
      exact gatherLoop_flatten Cluster.GetNodes xs [] zs _ rfl []
    · rw [composite_asCluster_GetClientNodes, composite_asCluster_GetClientNodes]
      exact gatherLoop_flatten Cluster.GetClientNodes xs [] zs _ rfl []
  · have hx : xs ++ zs = xs ++ [] ++ zs := by simp
    rw [hx]
    apply Cluster_eq_of_methods
    · rw [composite_asCluster_Apply, composite_asCluster_Apply]
      exact seqLoop_flatten Cluster.Apply xs [] zs _ rfl
    · rw [composite_asCluster_Delete, composite_asCluster_Delete]
      exact seqLoop_flatten Cluster.Delete xs [] zs _ rfl
    · rw [composite_asCluster_GetNodes, composite_asCluster_GetNodes]
      exact gatherLoop_flatten Cluster.GetNodes xs [] zs _ rfl []
    · rw [composite_asCluster_GetClientNodes, composite_asCluster_GetClientNodes]
      exact gatherLoop_flatten Cluster.GetClientNodes xs [] zs _ rfl []


/-! ## Inventory calls on leaf children -/

theorem gatherLoop_leaves_first_failure {L E N C α : Type} (env : LeafOutcomes L E N C)
    (f : Cluster L E N C → Runs L (List α × Option E)) (out : L → List α × Option E) (o : Op)
    (hleaf : ∀ l, f (leafCluster env l) = [([.call o l, .ret o l], out l)])
    (pre : List L) (l : L) (post : List L) (hpre : ∀ p ∈ pre, (out p).2 = none) (e : E)
    (hl : (out l).2 = some e) (acc : List α) :
    gatherLoop f ((pre ++ l :: post).map (leafCluster env)) acc =
      [(leafEvents o (pre ++ [l]), ([], some e))] := by
  induction pre generalizing acc with
  | nil =>
    simp only [List.nil_append, List.map_cons, gatherLoop_cons, hleaf, List.flatMap_cons,
      List.flatMap_nil, List.append_nil, gatherThen, hl]
    simp [leafEvents]
  | cons p pre ih =>
    have hp : (out p).2 = none := hpre p (by simp)
    have ih' := fun acc => ih (fun q hq => hpre q (List.mem_cons_of_mem _ hq)) acc
    simp only [List.cons_append, List.map_cons, gatherLoop_cons, hleaf, List.flatMap_cons,
      List.flatMap_nil, List.append_nil, gatherThen, hp]
    rw [ih']
    simp [leafEvents]

theorem queriedUpTo_of_first_failure {L E N C α : Type}
    (f : Cluster L E N C → Runs L (List α × Option E))
    (pre : List (Cluster L E N C)) (op : Cluster L E N C) (post : List (Cluster L E N C))
    (hpre : ∀ p ∈ pre, ∀ run ∈ f p, run.2.2 = none) (hop : ∀ run ∈ f op, run.2.2 ≠ none)
    (run : Trace L × List α × Option E) (h : run ∈ gatherLoop f (pre ++ op :: post) []) :
    QueriedUpTo f pre op run := by
  obtain ⟨rs, t, gathered, e, hrs, ht, rfl⟩ :=
    (gatherLoop_first_failure f pre op post hpre hop [] run).1 h
  exact ⟨rs, t, gathered, e, hrs, ht, rfl⟩

/-- C12: in a group or composite whose children before `op` succeed at
`GetNodes` (resp. `GetClientNodes`) and whose child `op` fails, every run of the
method is made of one run of each child before `op`, in declared order, then one
run of `op`, and of nothing of the children after `op`.  Over leaf children of
which `l` is the first to fail, the method thus has exactly one run: the
children before `l` are entered and left one after the other in declared order,
then `l` is entered and left, and the run ends there, with the error of `l` and
no sequence; each child up to `l` is called once, no child after `l` is
called. -/
theorem inventory_calls_stop_at_first_failure {L E N C : Type} (env : LeafOutcomes L E N C)
    (pre : List L) (l : L) (post : List L)
    (cpre : List (Cluster L E N C)) (cop : Cluster L E N C) (cpost : List (Cluster L E N C)) :
    (((∀ p ∈ cpre, ∀ run ∈ p.GetNodes, run.2.2 = none) →
        (∀ run ∈ cop.GetNodes, run.2.2 ≠ none) →
        ∀ run,
          run ∈ (NewGroupCluster (cpre ++ cop :: cpost)).GetNodes ∨
              run ∈ (NewCompositeCluster (cpre ++ cop :: cpost)).GetNodes →
            QueriedUpTo Cluster.GetNodes cpre cop run) ∧
      ((∀ p ∈ cpre, ∀ run ∈ p.GetClientNodes, run.2.2 = none) →
        (∀ run ∈ cop.GetClientNodes, run.2.2 ≠ none) →
        ∀ run,
          run ∈ (NewGroupCluster (cpre ++ cop :: cpost)).GetClientNodes ∨
              run ∈ (NewCompositeCluster (cpre ++ cop :: cpost)).GetClientNodes →
            QueriedUpTo Cluster.GetClientNodes cpre cop run)) ∧
    ((∀ p ∈ pre, (env.GetNodes p).2 = none) → ∀ e, (env.GetNodes l).2 = some e →
      (NewGroupCluster ((pre ++ l :: post).map (leafCluster env))).GetNodes =
          [(leafEvents .GetNodes (pre ++ [l]), ([], some e))] ∧
        (NewCompositeCluster ((pre ++ l :: post).map (leafCluster env))).GetNodes =
          [(leafEvents .GetNodes (pre ++ [l]), ([], some e))]) ∧
    ((∀ p ∈ pre, (env.GetClientNodes p).2 = none) →
      ∀ e, (env.GetClientNodes l).2 = some e →
      (NewGroupCluster ((pre ++ l :: post).map (leafCluster env))).GetClientNodes =
          [(leafEvents .GetClientNodes (pre ++ [l]), ([], some e))] ∧
        (NewCompositeCluster ((pre ++ l :: post).map (leafCluster env))).GetClientNodes =
          [(leafEvents .GetClientNodes (pre ++ [l]), ([], some e))]) := by
  refine ⟨⟨fun hpre hop run h => ?_, fun hpre hop run h => ?_⟩,
    fun hpre e hl => ⟨?_, ?_⟩, fun hpre e hl => ⟨?_, ?_⟩⟩
  · apply queriedUpTo_of_first_failure Cluster.GetNodes cpre cop cpost hpre hop run
    rcases h with h | h
    · rwa [groupCluster.GetNodes, groupCluster_GetNodes_loop_eq] at h
    · rwa [compositeCluster.GetNodes, compositeCluster_GetNodes_loop_eq] at h
  · apply queriedUpTo_of_first_failure Cluster.GetClientNodes cpre cop cpost hpre hop run
    rcases h with h | h
    · rwa [groupCluster.GetClientNodes, groupCluster_GetClientNodes_loop_eq] at h
    · rwa [compositeCluster.GetClientNodes, compositeCluster_GetClientNodes_loop_eq] at h
  · rw [groupCluster.GetNodes, groupCluster_GetNodes_loop_eq]
    exact gatherLoop_leaves_first_failure env _ env.GetNodes .GetNodes (fun _ => rfl) pre l post
      hpre e hl []
  · rw [compositeCluster.GetNodes, compositeCluster_GetNodes_loop_eq]
    exact gatherLoop_leaves_first_failure env _ env.GetNodes .GetNodes (fun _ => rfl) pre l post
      hpre e hl []
  · rw [groupCluster.GetClientNodes, groupCluster_GetClientNodes_loop_eq]
    exact gatherLoop_leaves_first_failure env _ env.GetClientNodes .GetClientNodes
      (fun _ => rfl) pre l post hpre e hl []
  · rw [compositeCluster.GetClientNodes, compositeCluster_GetClientNodes_loop_eq]
    exact gatherLoop_leaves_first_failure env _ env.GetClientNodes .GetClientNodes
      (fun _ => rfl) pre l post hpre e hl []

theorem inventory_calls_stop_at_first_failure_witness :
    ((NewGroupCluster
          (([0, 1] ++ 2 :: [3, 4]).map (leafCluster (exampleOutcomes [2, 4])))).GetNodes =
        [([.call .GetNodes 0, .ret .GetNodes 0, .call .GetNodes 1, .ret .GetNodes 1,
            .call .GetNodes 2, .ret .GetNodes 2], ([], some 502))] ∧
      (NewCompositeCluster
          (([0, 1] ++ 2 :: [3, 4]).map (leafCluster (exampleOutcomes [2, 4])))).GetNodes =
        [([.call .GetNodes 0, .ret .GetNodes 0, .call .GetNodes 1, .ret .GetNodes 1,
            .call .GetNodes 2, .ret .GetNodes 2], ([], some 502))]) ∧
    QueriedUpTo Cluster.GetNodes [(NewCompositeCluster (exampleLeaves [2] [0, 1])).asCluster]
      (leafCluster (exampleOutcomes [2]) 2)
      (([.call .GetNodes 0, .ret .GetNodes 0, .call .GetNodes 1, .ret .GetNodes 1,
          .call .GetNodes 2, .ret .GetNodes 2], ([], some 502)) :
        Trace Nat × List Nat × Option Nat) :=
  ⟨(inventory_calls_stop_at_first_failure (exampleOutcomes [2, 4]) [0, 1] 2 [3, 4]
      [] (leafCluster (exampleOutcomes [2, 4]) 2) []).2.1 (by decide) 502 (by decide),
    (inventory_calls_stop_at_first_failure (exampleOutcomes [2]) [] 2 []
      [(NewCompositeCluster (exampleLeaves [2] [0, 1])).asCluster]
      (leafCluster (exampleOutcomes [2]) 2) (exampleLeaves [2] [3])).1.1 (by decide) (by decide)
      ([.call .GetNodes 0, .ret .GetNodes 0, .call .GetNodes 1, .ret .GetNodes 1,
        .call .GetNodes 2, .ret .GetNodes 2], ([], some 502)) (Or.inl (by decide))⟩

/-! ## Concurrent and sequential traces -/

theorem seqLoop_trace_concat {L E N C : Type} (f : Cluster L E N C → Runs L (Option E))
    (ops : List (Cluster L E N C)) (run : Trace L × Option E) (h : run ∈ seqLoop f ops) :
    ∃ (pre post : List (Cluster L E N C)) (ts : List (Trace L)),
      ops = pre ++ post ∧ List.Forall₂ (fun p s => ∃ r, (s, r) ∈ f p) pre ts ∧
        run.1 = ts.flatten := by
  obtain ⟨tr, r⟩ := run
  cases r with
  | none =>
    obtain ⟨ts, hts, rfl⟩ := (mem_seqLoop_none f ops tr).1 h
    exact ⟨ops, [], ts, by simp, hts.imp fun _ _ hrun => ⟨none, hrun⟩, rfl⟩
  | some e =>
    obtain ⟨pre, op, post, ts, t, rfl, hts, hop, rfl⟩ := (mem_seqLoop_some f ops tr e).1 h
    refine ⟨pre ++ [op], post, ts ++ [t], by simp, ?_, by simp⟩
    exact List.rel_append (hts.imp fun _ _ hrun => ⟨none, hrun⟩)
      (List.Forall₂.cons ⟨some e, hop⟩ List.Forall₂.nil)

theorem gatherLoop_trace_concat {L E N C α : Type}
    (f : Cluster L E N C → Runs L (List α × Option E))
    (ops : List (Cluster L E N C)) (acc : List α) (run : Trace L × List α × Option E)
    (h : run ∈ gatherLoop f ops acc) :
    ∃ (pre post : List (Cluster L E N C)) (ts : List (Trace L)),
      ops = pre ++ post ∧ List.Forall₂ (fun p s => ∃ r, (s, r) ∈ f p) pre ts ∧
        run.1 = ts.flatten := by
  obtain ⟨tr, ns, r⟩ := run
  cases r with
  | none =>
    obtain ⟨rs, hrs, rfl, _⟩ := (mem_gatherLoop_none f ops acc tr ns).1 h
    refine ⟨ops, [], rs.map Prod.fst, by simp, ?_, rfl⟩
    rw [List.forall₂_map_right_iff]
    exact hrs.imp fun _ _ hrun => ⟨_, hrun⟩
  | some e =>
    obtain ⟨_, pre, op, post, rs, t, gathered, rfl, hrs, hop, rfl⟩ :=
      (mem_gatherLoop_some f ops acc tr ns e).1 h
    refine ⟨pre ++ [op], post, rs.map Prod.fst ++ [t], by simp, ?_, by simp⟩
    refine List.rel_append ?_ (List.Forall₂.cons ⟨_, hop⟩ List.Forall₂.nil)
    rw [List.forall₂_map_right_iff]
    exact hrs.imp fun _ _ hrun => ⟨_, hrun⟩

theorem Wait_traces {L E N C : Type} (f : Cluster L E N C → Runs L (Option E))
    (ops : List (Cluster L E N C)) (t : Trace L) :
    (∃ r, (t, r) ∈ (errgroup.Group.mk (ops.map f)).Wait) ↔
      ∃ runs : List (Trace L × Option E), List.Forall₂ (fun op run => run ∈ f op) ops runs ∧
        t ∈ interleavings (runs.map Prod.fst) := by
  constructor
  · rintro ⟨r, h⟩
    obtain ⟨runs, hruns, ht, _⟩ := (mem_Wait_map f ops t r).1 h
    exact ⟨runs, hruns, ht⟩
  · rintro ⟨runs, hruns, ht⟩
    obtain ⟨r, hr⟩ := List.exists_mem_of_ne_nil _ (firstError_ne_nil (runs.map Prod.snd))
    exact ⟨r, (mem_Wait_map f ops t r).2 ⟨runs, hruns, ht, hr⟩⟩

/-- C11: `groupCluster.Apply` hands one function per child to `Go`, the child's
`Apply`, and the traces of its runs are exactly the interleavings of one whole
run of every child: the children's operations may overlap and come in any
order, and the call returns only when every child has returned.  The same holds
for `Delete`.  Every run of a method of a composite, in contrast, is one run
after the other of the first children in declared order: no two children
overlap. -/
theorem group_interleaves_and_composite_sequences {L E N C : Type}
    (ops : List (Cluster L E N C)) :
    ((ops.foldl (fun g op => g.Go op.Apply) (⟨[]⟩ : errgroup.Group L E)).fns =
        ops.map Cluster.Apply ∧
      (ops.foldl (fun g op => g.Go op.Delete) (⟨[]⟩ : errgroup.Group L E)).fns =
        ops.map Cluster.Delete) ∧
    ((∀ t, (∃ r, (t, r) ∈ (NewGroupCluster ops).Apply) ↔
        ∃ runs : List (Trace L × Option E),
          List.Forall₂ (fun op run => run ∈ op.Apply) ops runs ∧
            t ∈ interleavings (runs.map Prod.fst)) ∧
      (∀ t, (∃ r, (t, r) ∈ (NewGroupCluster ops).Delete) ↔
        ∃ runs : List (Trace L × Option E),
          List.Forall₂ (fun op run => run ∈ op.Delete) ops runs ∧
            t ∈ interleavings (runs.map Prod.fst))) ∧
    ((∀ run ∈ (NewCompositeCluster ops).Apply,
        ∃ (pre post : List (Cluster L E N C)) (ts : List (Trace L)),
          ops = pre ++ post ∧ List.Forall₂ (fun p s => ∃ r, (s, r) ∈ p.Apply) pre ts ∧
            run.1 = ts.flatten) ∧
      (∀ run ∈ (NewCompositeCluster ops).Delete,
        ∃ (pre post : List (Cluster L E N C)) (ts : List (Trace L)),
          ops = pre ++ post ∧ List.Forall₂ (fun p s => ∃ r, (s, r) ∈ p.Delete) pre ts ∧
            run.1 = ts.flatten) ∧
      (∀ run ∈ (NewCompositeCluster ops).GetNodes,
        ∃ (pre post : List (Cluster L E N C)) (ts : List (Trace L)),
          ops = pre ++ post ∧ List.Forall₂ (fun p s => ∃ r, (s, r) ∈ p.GetNodes) pre ts ∧
            run.1 = ts.flatten) ∧
      (∀ run ∈ (NewCompositeCluster ops).GetClientNodes,
        ∃ (pre post : List (Cluster L E N C)) (ts : List (Trace L)),
          ops = pre ++ post ∧
            List.Forall₂ (fun p s => ∃ r, (s, r) ∈ p.GetClientNodes) pre ts ∧
            run.1 = ts.flatten)) := by
  refine ⟨⟨?_, ?_⟩, ⟨fun t => ?_, fun t => ?_⟩, ⟨fun run h => ?_, fun run h => ?_,
    fun run h => ?_, fun run h => ?_⟩⟩
  · rw [errgroup_Group_foldl_Go Cluster.Apply]
    rfl
  · rw [errgroup_Group_foldl_Go Cluster.Delete]
    rfl
  · rw [groupCluster_Apply_eq]
    exact Wait_traces Cluster.Apply ops t
  · rw [groupCluster_Delete_eq]
    exact Wait_traces Cluster.Delete ops t
  · rw [compositeCluster.Apply, compositeCluster_Apply_loop_eq] at h
    exact seqLoop_trace_concat Cluster.Apply ops run h
  · rw [compositeCluster.Delete, compositeCluster_Delete_loop_eq] at h
    exact seqLoop_trace_concat Cluster.Delete ops run h
  · rw [compositeCluster.GetNodes, compositeCluster_GetNodes_loop_eq] at h
    exact gatherLoop_trace_concat Cluster.GetNodes ops [] run h
  · rw [compositeCluster.GetClientNodes, compositeCluster_GetClientNodes_loop_eq] at h
    exact gatherLoop_trace_concat Cluster.GetClientNodes ops [] run h

theorem group_interleaves_and_composite_sequences_witness :
    (∃ r : Option Nat,
        ([.call .Apply 0, .call .Apply 1, .ret .Apply 0, .ret .Apply 1], r) ∈
          (NewGroupCluster (exampleLeaves [] [0, 1])).Apply) ∧
      (∃ r : Option Nat,
        ([.call .Apply 1, .ret .Apply 1, .call .Apply 0, .ret .Apply 0], r) ∈
          (NewGroupCluster (exampleLeaves [] [0, 1])).Apply) :=
  ⟨((group_interleaves_and_composite_sequences (exampleLeaves [] [0, 1])).2.1.1
      [.call .Apply 0, .call .Apply 1, .ret .Apply 0, .ret .Apply 1]).2
      ⟨[([.call .Apply 0, .ret .Apply 0], none), ([.call .Apply 1, .ret .Apply 1], none)],
        by simp [exampleLeaves, leafCluster, exampleOutcomes], by decide⟩,
    ((group_interleaves_and_composite_sequences (exampleLeaves [] [0, 1])).2.1.1
      [.call .Apply 1, .ret .Apply 1, .call .Apply 0, .ret .Apply 0]).2
      ⟨[([.call .Apply 0, .ret .Apply 0], none), ([.call .Apply 1, .ret .Apply 1], none)],
        by simp [exampleLeaves, leafCluster, exampleOutcomes], by decide⟩⟩


/-! ## The builders: databases first, relay last -/

theorem composite_group_relay {L E N C : Type} (env : LeafOutcomes L E N C)
    (up down : Cluster L E N C) (relay : L) (run : Trace L × Option E)
    (h : run ∈ (NewCompositeCluster
      [(NewGroupCluster [up, down]).asCluster, leafCluster env relay]).asCluster.Apply) :
    RelayAfterBoth env up down relay run := by
  rw [composite_asCluster_Apply, seqLoop_cons, List.mem_flatMap] at h
  obtain ⟨⟨g, r⟩, hg, hmem⟩ := h
  have hg' : (g, r) ∈ (errgroup.Group.mk ([up, down].map Cluster.Apply)).Wait := by
    have h2 : (g, r) ∈ (NewGroupCluster [up, down]).Apply := hg
    rw [groupCluster_Apply_eq] at h2
    exact h2
  obtain ⟨runs, hruns, htr, herr⟩ := (mem_Wait_map Cluster.Apply _ g r).1 hg'
  cases hruns with
  | @cons _ ru _ _ hu hrest =>
    cases hrest with
    | @cons _ rd _ _ hd hnil =>
      cases hnil
      simp only [List.map_cons, List.map_nil] at htr herr
      refine ⟨ru, hu, rd, hd, g, htr, ?_⟩
      rcases (mem_firstError _ r).1 herr with ⟨rfl, hall⟩ | ⟨e, rfl, he⟩
      · left
        refine ⟨hall _ (by simp), hall _ (by simp), ?_⟩
        simp only [seqThen, seqLoop_cons, seqLoop, leafCluster, List.flatMap_cons,
          List.flatMap_nil, List.append_nil, List.mem_map] at hmem
        obtain ⟨rest, hrest, rfl⟩ := hmem
        cases hc : env.Apply relay with
        | none =>
          rw [hc] at hrest
          simp only [List.map_cons, List.map_nil, List.mem_singleton] at hrest
          subst hrest
          simp
        | some e =>
          rw [hc] at hrest
          simp only [List.mem_singleton] at hrest
          subst hrest
          rfl
      · right
        simp only [seqThen, List.mem_singleton] at hmem
        subst hmem
        simp only [List.mem_cons, List.mem_singleton, List.not_mem_nil, or_false] at he
        refine ⟨?_, rfl, by simp, ?_⟩
        · rcases he with he | he
          · exact Or.inl (by rw [← he]; simp)
          · exact Or.inr (by rw [← he]; simp)
        · rcases he with he | he
          · exact Or.inl he
          · exact Or.inr he

theorem relayLast_of_relayAfterBoth {L E N C : Type} (env : LeafOutcomes L E N C)
    (up down : Cluster L E N C) (relay : L) (run : Trace L × Option E)
    (Sup Sdown : Prop) (nup ndown : List (Event L))
    (hup : ∀ ru ∈ up.Apply, (ru.2 = none ↔ Sup) ∧ Event.call .Apply relay ∉ ru.1 ∧
      (ru.2 = none → ∀ ev ∈ nup, ev ∈ ru.1))
    (hdown : ∀ rd ∈ down.Apply, (rd.2 = none ↔ Sdown) ∧ Event.call .Apply relay ∉ rd.1 ∧
      (rd.2 = none → ∀ ev ∈ ndown, ev ∈ rd.1))
    (h : RelayAfterBoth env up down relay run) :
    RelayLast (Sup ∧ Sdown) (nup ++ ndown) relay run := by
  obtain ⟨ru, hru, rd, hrd, g, hg, hcase⟩ := h
  obtain ⟨hu1, hu2, hu3⟩ := hup ru hru
  obtain ⟨hd1, hd2, hd3⟩ := hdown rd hrd
  have hmem : ∀ ev, ev ∈ g ↔ ev ∈ ru.1 ∨ ev ∈ rd.1 := by
    intro ev
    rw [mem_of_mem_interleavings _ g hg ev]
    simp
  have hrelay : Event.call .Apply relay ∉ g := by
    rw [hmem]
    exact fun hor => hor.elim hu2 hd2
  rcases hcase with ⟨hun, hdn, rfl⟩ | ⟨hfail, hrun, hne, _⟩
  · refine ⟨fun _ => ⟨g, rfl, ?_, hrelay⟩, fun hns => absurd ⟨hu1.1 hun, hd1.1 hdn⟩ hns⟩
    intro ev hev
    rcases List.mem_append.1 hev with hev | hev
    · exact (hmem ev).2 (Or.inl (hu3 hun ev hev))
    · exact (hmem ev).2 (Or.inr (hd3 hdn ev hev))
  · refine ⟨fun hs => ?_, fun _ => ⟨by rw [hrun]; exact hrelay, hne⟩⟩
    rcases hfail with hf | hf
    · exact absurd (hu1.2 hs.1) hf
    · exact absurd (hd1.2 hs.2) hf

theorem leaf_before_relay {L E N C : Type} (env : LeafOutcomes L E N C) (l relay : L)
    (hne : relay ≠ l) :
    ∀ ru ∈ (leafCluster env l).Apply,
      (ru.2 = none ↔ env.Apply l = none) ∧ Event.call .Apply relay ∉ ru.1 ∧
        (ru.2 = none → ∀ ev ∈ [Event.ret .Apply l], ev ∈ ru.1) := by
  intro ru hru
  simp only [leafCluster, List.mem_singleton] at hru
  subst hru
  refine ⟨Iff.rfl, ?_, ?_⟩
  · simpa using hne
  · intro _ ev hev
    simp only [List.mem_singleton] at hev
    subst hev
    simp

theorem tiflash_before_relay {Conf E N C : Type} (env : LeafOutcomes (Leaf Conf) E N C)
    (ns name : String) (conf : Conf) (relay : Leaf Conf)
    (hne₁ : relay ≠ .tidb ns name conf .placementRules) (hne₂ : relay ≠ .tiflash ns name) :
    ∀ ru ∈ (NewTiFlashCluster env ns name conf).Apply,
      (ru.2 = none ↔
        env.Apply (.tidb ns name conf .placementRules) = none ∧
          env.Apply (.tiflash ns name) = none) ∧
      Event.call .Apply relay ∉ ru.1 ∧
      (ru.2 = none →
        ∀ ev ∈ [Event.ret .Apply (.tidb ns name conf .placementRules),
          Event.ret .Apply (.tiflash ns name)], ev ∈ ru.1) := by
  intro ru hru
  simp only [NewTiFlashCluster, composite_asCluster_Apply, seqLoop_cons, seqLoop, leafCluster,
    tidb.New, tiflash.New, Leaf.setSpec, List.flatMap_cons, List.flatMap_nil,
    List.append_nil] at hru
  cases ht : env.Apply (.tidb ns name conf .placementRules) with
  | some e =>
    rw [ht] at hru
    simp only [seqThen, List.mem_singleton] at hru
    subst hru
    refine ⟨by simp, ?_, by simp⟩
    simpa using hne₁
  | none =>
    rw [ht] at hru
    cases hf : env.Apply (.tiflash ns name) with
    | some e =>
      rw [hf] at hru
      simp only [seqThen, List.map_cons, List.map_nil, List.mem_singleton] at hru
      subst hru
      refine ⟨by simp, ?_, by simp⟩
      simpa using ⟨hne₁, hne₂⟩
    | none =>
      rw [hf] at hru
      simp only [seqThen, List.map_cons, List.map_nil, List.mem_singleton] at hru
      subst hru
      refine ⟨by simp, ?_, by simp⟩
      simpa using ⟨hne₁, hne₂⟩

/-- C14: `NewCDCCluster` returns `Composite(Group(upstream TiDB, downstream
TiDB), CDC)`, and in every run of its `Apply` the CDC leaf comes last: if both
TiDB leaves succeeded, it is entered after both have returned; if one of them
failed, it is not entered and the run returns an error.  `NewBinlogCluster` is
the same with the binlog leaf as relay, and `NewTiFlashCDCABTestCluster` the
same with, as upstream, the composite of a TiDB leaf and its TiFlash leaf: the
CDC leaf is entered only after all three database leaves have returned
successfully. -/
theorem builders_apply_relay_last {Conf E N C : Type} (env : LeafOutcomes (Leaf Conf) E N C)
    (ns name : String) (conf confA confB : Conf) :
    (NewCDCCluster env ns name conf =
        Tree.build env (.composite [
          .group [.leaf (.tidb ns (name ++ "-upstream") conf .unchanged),
            .leaf (.tidb ns (name ++ "-downstream") conf .unchanged)],
          .leaf (.cdc ns name)]) ∧
      ∀ run ∈ (NewCDCCluster env ns name conf).Apply,
        RelayLast
          (env.Apply (.tidb ns (name ++ "-upstream") conf .unchanged) = none ∧
            env.Apply (.tidb ns (name ++ "-downstream") conf .unchanged) = none)
          ([.ret .Apply (.tidb ns (name ++ "-upstream") conf .unchanged)] ++
            [.ret .Apply (.tidb ns (name ++ "-downstream") conf .unchanged)])
          (.cdc ns name) run) ∧
    (NewBinlogCluster env ns name conf =
        Tree.build env (.composite [
          .group [.leaf (.tidb ns (name ++ "-upstream") conf .binlogPump),
            .leaf (.tidb ns (name ++ "-downstream") conf .unchanged)],
          .leaf (.binlog ns name)]) ∧
      ∀ run ∈ (NewBinlogCluster env ns name conf).Apply,
        RelayLast
          (env.Apply (.tidb ns (name ++ "-upstream") conf .binlogPump) = none ∧
            env.Apply (.tidb ns (name ++ "-downstream") conf .unchanged) = none)
          ([.ret .Apply (.tidb ns (name ++ "-upstream") conf .binlogPump)] ++
            [.ret .Apply (.tidb ns (name ++ "-downstream") conf .unchanged)])
          (.binlog ns name) run) ∧
    (NewTiFlashCDCABTestCluster env ns name confA confB =
        Tree.build env (.composite [
          .group [
            .composite [.leaf (.tidb ns (name ++ "-upstream") confA .placementRules),
              .leaf (.tiflash ns (name ++ "-upstream"))],
            .leaf (.tidb ns (name ++ "-downstream") confB .unchanged)],
          .leaf (.cdc ns name)]) ∧
      ∀ run ∈ (NewTiFlashCDCABTestCluster env ns name confA confB).Apply,
        RelayLast
          ((env.Apply (.tidb ns (name ++ "-upstream") confA .placementRules) = none ∧
              env.Apply (.tiflash ns (name ++ "-upstream")) = none) ∧
            env.Apply (.tidb ns (name ++ "-downstream") confB .unchanged) = none)
          ([.ret .Apply (.tidb ns (name ++ "-upstream") confA .placementRules),
              .ret .Apply (.tiflash ns (name ++ "-upstream"))] ++
            [.ret .Apply (.tidb ns (name ++ "-downstream") confB .unchanged)])
          (.cdc ns name) run) := by
  refine ⟨⟨rfl, fun run h => ?_⟩, ⟨rfl, fun run h => ?_⟩, ⟨rfl, fun run h => ?_⟩⟩
  · exact relayLast_of_relayAfterBoth env _ _ _ run _ _ _ _
      (leaf_before_relay env _ _ (by simp)) (leaf_before_relay env _ _ (by simp))
      (composite_group_relay env _ _ _ run h)
  · exact relayLast_of_relayAfterBoth env _ _ _ run _ _ _ _
      (leaf_before_relay env _ _ (by simp [Leaf.setSpec, tidb.New]))
      (leaf_before_relay env _ _ (by simp)) (composite_group_relay env _ _ _ run h)
  · exact relayLast_of_relayAfterBoth env _ _ _ run _ _ _ _
      (tiflash_before_relay env _ _ _ _ (by simp) (by simp))
      (leaf_before_relay env _ _ (by simp)) (composite_group_relay env _ _ _ run h)

theorem builders_apply_relay_last_witness :
    ((([.call .Apply (.tidb "ns" "t-upstream" 0 .unchanged),
          .call .Apply (.tidb "ns" "t-downstream" 0 .unchanged),
          .ret .Apply (.tidb "ns" "t-downstream" 0 .unchanged),
          .ret .Apply (.tidb "ns" "t-upstream" 0 .unchanged),
          .call .Apply (.cdc "ns" "t"), .ret .Apply (.cdc "ns" "t")], none) :
        Trace (Leaf Nat) × Option Nat) ∈
        (NewCDCCluster exampleBuilderOutcomes "ns" "t" 0).Apply ∧
      RelayLast
        (exampleBuilderOutcomes.Apply (.tidb "ns" ("t" ++ "-upstream") 0 .unchanged) = none ∧
          exampleBuilderOutcomes.Apply (.tidb "ns" ("t" ++ "-downstream") 0 .unchanged) = none)
        ([.ret .Apply (.tidb "ns" ("t" ++ "-upstream") 0 .unchanged)] ++
          [.ret .Apply (.tidb "ns" ("t" ++ "-downstream") 0 .unchanged)])
        (.cdc "ns" "t")
        (([.call .Apply (.tidb "ns" "t-upstream" 0 .unchanged),
          .call .Apply (.tidb "ns" "t-downstream" 0 .unchanged),
          .ret .Apply (.tidb "ns" "t-downstream" 0 .unchanged),
          .ret .Apply (.tidb "ns" "t-upstream" 0 .unchanged),
          .call .Apply (.cdc "ns" "t"), .ret .Apply (.cdc "ns" "t")], none) :
        Trace (Leaf Nat) × Option Nat)) ∧
    ((([.call .Apply (.tidb "ns" "t-upstream" 0 .placementRules),
          .call .Apply (.tidb "ns" "t-downstream" 1 .unchanged),
          .ret .Apply (.tidb "ns" "t-downstream" 1 .unchanged),
          .ret .Apply (.tidb "ns" "t-upstream" 0 .placementRules),
          .call .Apply (.tiflash "ns" "t-upstream"),
          .ret .Apply (.tiflash "ns" "t-upstream")], some 7) :
        Trace (Leaf Nat) × Option Nat) ∈
        (NewTiFlashCDCABTestCluster exampleBuilderOutcomes "ns" "t" 0 1).Apply ∧
      RelayLast
        ((exampleBuilderOutcomes.Apply (.tidb "ns" ("t" ++ "-upstream") 0 .placementRules) =
              none ∧
            exampleBuilderOutcomes.Apply (.tiflash "ns" ("t" ++ "-upstream")) = none) ∧
          exampleBuilderOutcomes.Apply (.tidb "ns" ("t" ++ "-downstream") 1 .unchanged) = none)
        ([.ret .Apply (.tidb "ns" ("t" ++ "-upstream") 0 .placementRules),
            .ret .Apply (.tiflash "ns" ("t" ++ "-upstream"))] ++
          [.ret .Apply (.tidb "ns" ("t" ++ "-downstream") 1 .unchanged)])
        (.cdc "ns" "t")
        (([.call .Apply (.tidb "ns" "t-upstream" 0 .placementRules),
          .call .Apply (.tidb "ns" "t-downstream" 1 .unchanged),
          .ret .Apply (.tidb "ns" "t-downstream" 1 .unchanged),
          .ret .Apply (.tidb "ns" "t-upstream" 0 .placementRules),
          .call .Apply (.tiflash "ns" "t-upstream"),
          .ret .Apply (.tiflash "ns" "t-upstream")], some 7) :
        Trace (Leaf Nat) × Option Nat)) :=
  ⟨⟨by decide,
      (builders_apply_relay_last exampleBuilderOutcomes "ns" "t" 0 0 0).1.2 _ (by decide)⟩,
    ⟨by decide,
      (builders_apply_relay_last exampleBuilderOutcomes "ns" "t" 0 0 1).2.2.2 _ (by decide)⟩⟩

/-! ## What a group returns, and that it returns -/

theorem Wait_mem_iff {L E N C : Type} (f : Cluster L E N C → Runs L (Option E))
    (ops : List (Cluster L E N C)) (run : Trace L × Option E) :
    run ∈ (errgroup.Group.mk (ops.map f)).Wait ↔
      ∃ runs : List (Trace L × Option E), List.Forall₂ (fun op r => r ∈ f op) ops runs ∧
        run.1 ∈ interleavings (runs.map Prod.fst) ∧
        ((run.2 = none ∧ ∀ r ∈ runs, r.2 = none) ∨
          (∃ e, run.2 = some e ∧ ∃ r ∈ runs, r.2 = some e)) := by
  obtain ⟨tr, res⟩ := run
  rw [mem_Wait_map]
  constructor
  · rintro ⟨runs, hruns, htr, herr⟩
    refine ⟨runs, hruns, htr, ?_⟩
    rcases (mem_firstError _ res).1 herr with ⟨hres, hall⟩ | ⟨e, hres, he⟩
    · exact Or.inl ⟨hres, fun r hr => hall r.2 (List.mem_map_of_mem _ hr)⟩
    · obtain ⟨r, hr, hre⟩ := List.mem_map.1 he
      exact Or.inr ⟨e, hres, r, hr, hre⟩
  · rintro ⟨runs, hruns, htr, hcase⟩
    refine ⟨runs, hruns, htr, (mem_firstError _ res).2 ?_⟩
    rcases hcase with ⟨hres, hall⟩ | ⟨e, hres, r, hr, hre⟩
    · refine Or.inl ⟨hres, ?_⟩
      intro x hx
      obtain ⟨r, hr, rfl⟩ := List.mem_map.1 hx
      exact hall r hr
    · exact Or.inr ⟨e, hres, List.mem_map.2 ⟨r, hr, hre⟩⟩

theorem Wait_runs_all_children {L E N C : Type} (f : Cluster L E N C → Runs L (Option E))
    (ops : List (Cluster L E N C)) (runs : List (Trace L × Option E))
    (hruns : List.Forall₂ (fun op r => r ∈ f op) ops runs) :
    ∃ run ∈ (errgroup.Group.mk (ops.map f)).Wait,
      run.1.Perm (runs.map Prod.fst).flatten ∧ ∀ r ∈ runs, r.1.Sublist run.1 := by
  obtain ⟨res, hres⟩ := List.exists_mem_of_ne_nil _ (firstError_ne_nil (runs.map Prod.snd))
  have htr := flatten_mem_interleavings (runs.map Prod.fst)
  refine ⟨((runs.map Prod.fst).flatten, res),
    (mem_Wait_map f ops _ res).2 ⟨runs, hruns, htr, hres⟩, List.Perm.refl _, ?_⟩
  intro r hr
  exact interleavings_sublist _ _ htr r.1 (List.mem_map_of_mem _ hr)

theorem Wait_every_child_once {L E N C : Type} (f : Cluster L E N C → Runs L (Option E))
    (ops : List (Cluster L E N C)) (run : Trace L × Option E)
    (h : run ∈ (errgroup.Group.mk (ops.map f)).Wait) :
    ∃ runs : List (Trace L × Option E), List.Forall₂ (fun op r => r ∈ f op) ops runs ∧
      run.1.Perm (runs.map Prod.fst).flatten ∧ ∀ r ∈ runs, r.1.Sublist run.1 := by
  obtain ⟨runs, hruns, htr, _⟩ := (mem_Wait_map f ops run.1 run.2).1 h
  exact ⟨runs, hruns, interleavings_perm _ _ htr, fun r hr =>
    interleavings_sublist _ _ htr r.1 (List.mem_map_of_mem _ hr)⟩

/-- C5: a group's `Apply` returns whenever every child's `Apply` does, and its
runs are exactly these: one run of each child's `Apply`, interleaved in any
way, returning no error when none of those child runs returned one, and else
returning the very error that one of those child runs returned.  So it returns
an error if and only if one of the child runs did, and that error is the error
of a failing child, neither wrapped nor aggregated.  The same holds for
`Delete`. -/
theorem group_error_is_a_child_error {L E N C : Type} (ops : List (Cluster L E N C)) :
    (((∀ c ∈ ops, c.Apply ≠ []) → (NewGroupCluster ops).Apply ≠ []) ∧
      (∀ run : Trace L × Option E,
        run ∈ (NewGroupCluster ops).Apply ↔
          ∃ runs : List (Trace L × Option E),
            List.Forall₂ (fun op r => r ∈ op.Apply) ops runs ∧
              run.1 ∈ interleavings (runs.map Prod.fst) ∧
              ((run.2 = none ∧ ∀ r ∈ runs, r.2 = none) ∨
                (∃ e, run.2 = some e ∧ ∃ r ∈ runs, r.2 = some e))) ∧
      (∀ run ∈ (NewGroupCluster ops).Apply,
        ∃ runs : List (Trace L × Option E),
          List.Forall₂ (fun op r => r ∈ op.Apply) ops runs ∧
            run.1 ∈ interleavings (runs.map Prod.fst) ∧
            (run.2 ≠ none ↔ ∃ r ∈ runs, r.2 ≠ none) ∧
            (∀ e, run.2 = some e → ∃ r ∈ runs, r.2 = some e))) ∧
    (((∀ c ∈ ops, c.Delete ≠ []) → (NewGroupCluster ops).Delete ≠ []) ∧
      (∀ run : Trace L × Option E,
        run ∈ (NewGroupCluster ops).Delete ↔
          ∃ runs : List (Trace L × Option E),
            List.Forall₂ (fun op r => r ∈ op.Delete) ops runs ∧
              run.1 ∈ interleavings (runs.map Prod.fst) ∧
              ((run.2 = none ∧ ∀ r ∈ runs, r.2 = none) ∨
                (∃ e, run.2 = some e ∧ ∃ r ∈ runs, r.2 = some e))) ∧
      (∀ run ∈ (NewGroupCluster ops).Delete,
        ∃ runs : List (Trace L × Option E),
          List.Forall₂ (fun op r => r ∈ op.Delete) ops runs ∧
            run.1 ∈ interleavings (runs.map Prod.fst) ∧
            (run.2 ≠ none ↔ ∃ r ∈ runs, r.2 ≠ none) ∧
            (∀ e, run.2 = some e → ∃ r ∈ runs, r.2 = some e))) := by
  refine ⟨⟨fun h => ?_, fun run => ?_, fun run h => ?_⟩,
    ⟨fun h => ?_, fun run => ?_, fun run h => ?_⟩⟩
  · rw [groupCluster_Apply_eq]
    exact Wait_ne_nil Cluster.Apply ops h
  · rw [groupCluster_Apply_eq]
    exact Wait_mem_iff Cluster.Apply ops run
  · rw [groupCluster_Apply_eq] at h
    exact Wait_run_of_children Cluster.Apply ops run h
  · rw [groupCluster_Delete_eq]
    exact Wait_ne_nil Cluster.Delete ops h
  · rw [groupCluster_Delete_eq]
    exact Wait_mem_iff Cluster.Delete ops run
  · rw [groupCluster_Delete_eq] at h
    exact Wait_run_of_children Cluster.Delete ops run h

theorem group_error_is_a_child_error_witness :
    ((([.call .Apply 2, .call .Apply 0, .ret .Apply 0, .call .Apply 1, .ret .Apply 2,
          .ret .Apply 1], some 502) : Trace Nat × Option Nat) ∈
          (NewGroupCluster (exampleLeaves [0, 2] [0, 1, 2])).Apply ∧
        ∃ runs : List (Trace Nat × Option Nat),
          List.Forall₂ (fun op r => r ∈ op.Apply) (exampleLeaves [0, 2] [0, 1, 2]) runs ∧
          [.call .Apply 2, .call .Apply 0, .ret .Apply 0, .call .Apply 1, .ret .Apply 2,
            .ret .Apply 1] ∈ interleavings (runs.map Prod.fst) ∧
          (some 502 ≠ none ↔ ∃ r ∈ runs, r.2 ≠ none) ∧
          (∀ e, some 502 = some e → ∃ r ∈ runs, r.2 = some e)) ∧
      ((NewGroupCluster (exampleLeaves [0, 2] [0, 1, 2])).Delete ≠ [] ∧
        (([.call .Delete 2, .call .Delete 0, .ret .Delete 0, .call .Delete 1, .ret .Delete 2,
          .ret .Delete 1], some 500) : Trace Nat × Option Nat) ∈
          (NewGroupCluster (exampleLeaves [0, 2] [0, 1, 2])).Delete ∧
        ∃ runs : List (Trace Nat × Option Nat),
          List.Forall₂ (fun op r => r ∈ op.Delete) (exampleLeaves [0, 2] [0, 1, 2]) runs ∧
          [.call .Delete 1, .ret .Delete 1, .call .Delete 0, .call .Delete 2, .ret .Delete 2,
            .ret .Delete 0] ∈ interleavings (runs.map Prod.fst) ∧
          (some 502 ≠ none ↔ ∃ r ∈ runs, r.2 ≠ none) ∧
          (∀ e, some 502 = some e → ∃ r ∈ runs, r.2 = some e)) :=
  ⟨⟨by decide,
      (group_error_is_a_child_error (exampleLeaves [0, 2] [0, 1, 2])).1.2.2
        ([.call .Apply 2, .call .Apply 0, .ret .Apply 0, .call .Apply 1, .ret .Apply 2,
          .ret .Apply 1], some 502) (by decide)⟩,
    ⟨(group_error_is_a_child_error (exampleLeaves [0, 2] [0, 1, 2])).2.1 (by decide),
      ((group_error_is_a_child_error (exampleLeaves [0, 2] [0, 1, 2])).2.2.1
        ([.call .Delete 2, .call .Delete 0, .ret .Delete 0, .call .Delete 1, .ret .Delete 2,
          .ret .Delete 1], some 500)).2
        ⟨[([.call .Delete 0, .ret .Delete 0], some 500), ([.call .Delete 1, .ret .Delete 1], none),
            ([.call .Delete 2, .ret .Delete 2], some 502)],
          by simp [exampleLeaves, leafCluster, exampleOutcomes], by decide,
          Or.inr ⟨500, rfl, _, List.mem_cons_self _ _, rfl⟩⟩,
      (group_error_is_a_child_error (exampleLeaves [0, 2] [0, 1, 2])).2.2.2
        ([.call .Delete 1, .ret .Delete 1, .call .Delete 0, .call .Delete 2, .ret .Delete 2,
          .ret .Delete 0], some 502) (by decide)⟩⟩

/-- C6: whatever the children return, a group's `Apply` enters every child once
and leaves none unfinished.  It returns whenever every child's `Apply` does;
for every choice of one run per child, failing or not, there is a run of the
group that holds them all; and every run of the group contains one whole run of
every child's `Apply` and nothing else: its trace is a rearrangement of the
children's traces put together, and each child's trace appears in it in its own
order, up to that child's return.  A failing child therefore leaves the runs of
the other children complete.  The same holds for `Delete`. -/
theorem group_runs_every_child_once {L E N C : Type} (ops : List (Cluster L E N C)) :
    (((∀ c ∈ ops, c.Apply ≠ []) → (NewGroupCluster ops).Apply ≠ []) ∧
      (∀ runs : List (Trace L × Option E),
        List.Forall₂ (fun op r => r ∈ op.Apply) ops runs →
          ∃ run ∈ (NewGroupCluster ops).Apply,
            run.1.Perm (runs.map Prod.fst).flatten ∧ ∀ r ∈ runs, r.1.Sublist run.1) ∧
      (∀ run ∈ (NewGroupCluster ops).Apply,
        ∃ runs : List (Trace L × Option E),
          List.Forall₂ (fun op r => r ∈ op.Apply) ops runs ∧
            run.1.Perm (runs.map Prod.fst).flatten ∧ ∀ r ∈ runs, r.1.Sublist run.1)) ∧
    (((∀ c ∈ ops, c.Delete ≠ []) → (NewGroupCluster ops).Delete ≠ []) ∧
      (∀ runs : List (Trace L × Option E),
        List.Forall₂ (fun op r => r ∈ op.Delete) ops runs →
          ∃ run ∈ (NewGroupCluster ops).Delete,
            run.1.Perm (runs.map Prod.fst).flatten ∧ ∀ r ∈ runs, r.1.Sublist run.1) ∧
      (∀ run ∈ (NewGroupCluster ops).Delete,
        ∃ runs : List (Trace L × Option E),
          List.Forall₂ (fun op r => r ∈ op.Delete) ops runs ∧
            run.1.Perm (runs.map Prod.fst).flatten ∧ ∀ r ∈ runs, r.1.Sublist run.1)) := by
  refine ⟨⟨fun h => ?_, fun runs hruns => ?_, fun run h => ?_⟩,
    ⟨fun h => ?_, fun runs hruns => ?_, fun run h => ?_⟩⟩
  · rw [groupCluster_Apply_eq]
    exact Wait_ne_nil Cluster.Apply ops h
  · rw [groupCluster_Apply_eq]
    exact Wait_runs_all_children Cluster.Apply ops runs hruns
  · rw [groupCluster_Apply_eq] at h
    exact Wait_every_child_once Cluster.Apply ops run h
  · rw [groupCluster_Delete_eq]
    exact Wait_ne_nil Cluster.Delete ops h
  · rw [groupCluster_Delete_eq]
    exact Wait_runs_all_children Cluster.Delete ops runs hruns
  · rw [groupCluster_Delete_eq] at h
    exact Wait_every_child_once Cluster.Delete ops run h

theorem group_runs_every_child_once_witness :
    ((([.call .Apply 1, .call .Apply 0, .ret .Apply 0, .ret .Apply 1], some 500) :
          Trace Nat × Option Nat) ∈ (NewGroupCluster (exampleLeaves [0] [0, 1])).Apply ∧
        ∃ runs : List (Trace Nat × Option Nat),
          List.Forall₂ (fun op r => r ∈ op.Apply) (exampleLeaves [0] [0, 1]) runs ∧
          List.Perm [.call .Apply 1, .call .Apply 0, .ret .Apply 0, .ret .Apply 1]
            (runs.map Prod.fst).flatten ∧
          ∀ r ∈ runs,
            r.1.Sublist [.call .Apply 1, .call .Apply 0, .ret .Apply 0, .ret .Apply 1]) ∧
      ((NewGroupCluster (exampleLeaves [0] [0, 1])).Delete ≠ [] ∧
        (∃ run ∈ (NewGroupCluster (exampleLeaves [0] [0, 1])).Delete,
          run.1.Perm
              (([([.call .Delete 0, .ret .Delete 0], some 500),
                ([.call .Delete 1, .ret .Delete 1], none)] :
                  List (Trace Nat × Option Nat)).map Prod.fst).flatten ∧
            ∀ r ∈ ([([.call .Delete 0, .ret .Delete 0], some 500),
                ([.call .Delete 1, .ret .Delete 1], none)] : List (Trace Nat × Option Nat)),
              r.1.Sublist run.1) ∧
        ∃ runs : List (Trace Nat × Option Nat),
          List.Forall₂ (fun op r => r ∈ op.Delete) (exampleLeaves [0] [0, 1]) runs ∧
          List.Perm [.call .Delete 1, .call .Delete 0, .ret .Delete 1, .ret .Delete 0]
            (runs.map Prod.fst).flatten ∧
          ∀ r ∈ runs,
            r.1.Sublist [.call .Delete 1, .call .Delete 0, .ret .Delete 1, .ret .Delete 0]) :=
  ⟨⟨by decide,
      (group_runs_every_child_once (exampleLeaves [0] [0, 1])).1.2.2
        ([.call .Apply 1, .call .Apply 0, .ret .Apply 0, .ret .Apply 1], some 500)
        (by decide)⟩,
    ⟨(group_runs_every_child_once (exampleLeaves [0] [0, 1])).2.1 (by decide),
      (group_runs_every_child_once (exampleLeaves [0] [0, 1])).2.2.1
        [([.call .Delete 0, .ret .Delete 0], some 500), ([.call .Delete 1, .ret .Delete 1], none)]
        (by simp [exampleLeaves, leafCluster, exampleOutcomes]),
      (group_runs_every_child_once (exampleLeaves [0] [0, 1])).2.2.2
        ([.call .Delete 1, .call .Delete 0, .ret .Delete 1, .ret .Delete 0], some 500)
        (by decide)⟩⟩

end testinfra
